import Mathlib

/-!
A verification development for the rx reactive rendering engine.

The definitions below are a shallow embedding, in Lean, of the Go sources
`render.go` (node tree, dual-generation entity tree, serializer, XAS byte
program) and `engine.go` (entity counter, render-cycle driver, intent
dispatch).  Go strings are modelled as byte lists, machine integers as `Nat`
with explicit `% 2^32` (resp. `% 2^16`) where overflow matters, `panic` as
`Except.error`, and the transient per-object `visited` flag as an explicit
set of object identities (`nid`) threaded through the serializer.
-/

/-- A Go string, as its byte sequence. -/
abbrev GoString := List Nat

/-- Byte sequence of an ASCII Lean string literal (used for the fixed tag
names such as "nothing" and "reuse", and in concrete examples). -/
def strBytes (s : String) : GoString := s.toList.map Char.toNat

/-- `type Entity = uint32` (engine.go). Values are reduced `% 2^32` wherever
arithmetic happens. -/
abbrev Entity := Nat

/-- `2^32`, the modulus of Go's `uint32`. -/
def U32 : Nat := 4294967296

/-- `type Counter Entity` (engine.go). -/
structure Counter where
  val : Entity
deriving Repr, DecidableEq

/-- `func (c *Counter) Inc() Entity { *c += 2; return Entity(*c) }`
(engine.go). Returns the updated counter together with the returned value. -/
def Counter.Inc (c : Counter) : Counter × Entity :=
  let v := (c.val + 2) % U32
  (⟨v⟩, v)

/-- `type IntentType int` (engine.go). -/
abbrev IntentType := Nat

/-- `Seppuku`, the last intent type; it sizes the handler array. -/
def Seppuku : IntentType := 17

/-- A build `Context` (context.go). The Go value is a pair of pointers
`{ng *Engine; vx *vctx}`; the sentinel `NoAction` is the zero value (both
nil), and every context the engine hands to an action has `ng` set.  We model
a context as `Option σ` where `σ` is the application-state type: `none` is
`NoAction`, `some s` is an engine context carrying state `s`. -/
abbrev Context (σ : Type) := Option σ

/-- `type intentHandler [Seppuku]func(Context) Context` (render.go):
a fixed-size array of 17 handler slots, `none` for a nil entry. -/
def intentHandler (σ : Type) := Fin 17 → Option (Context σ → Context σ)

/-- The all-nil handler array (Go zero value). -/
def noHandler (σ : Type) : intentHandler σ := fun _ => none

/-- `func (i *intentHandler) Some() bool` (render.go): true iff any slot is
non-nil. -/
def hdlAny {σ : Type} (h : intentHandler σ) : Bool :=
  decide (∃ i : Fin 17, (h i).isSome)

/-- `type Attr struct{ Name, Value string }` (render.go). -/
structure Attr where
  Name : GoString
  Value : GoString
deriving Repr, DecidableEq

/-- The scalar fields of `type Node struct` (render.go).  `nid` is the
object identity of the node (Go nodes are distinct heap objects; the
serializer's `visited` flag is modelled as membership of `nid` in a visited
set).  `ntt` is the `Entity` field, `old` the prior entity of "reuse" nodes,
`hdl` the handler array. -/
structure NodeCore (σ : Type) where
  nid : Nat
  ntt : Entity
  TagName : GoString
  Classes : GoString
  Text : GoString
  Attrs : List Attr
  Focused : Bool
  old : Entity
  hdl : intentHandler σ

/-- `Node` (render.go): scalar fields plus the ordered child list.  Children
are `*Node` pointers in Go; a nil child (a fatal caller error the serializer
asserts against) is not representable here. -/
inductive Node (σ : Type) : Type where
  | mk (core : NodeCore σ) (Children : List (Node σ))

/-- The scalar fields of a node. -/
def Node.core {σ : Type} : Node σ → NodeCore σ
  | .mk c _ => c

/-- The child list of a node. -/
def Node.Children {σ : Type} : Node σ → List (Node σ)
  | .mk _ cs => cs

/-- Object identity of a node (see `NodeCore.nid`). -/
def Node.nid {σ : Type} (n : Node σ) : Nat := n.core.nid

/-- `func (n *Node) AddClasses(cls ...string) *Node` (render.go):
`c := strings.Join(cls, " "); if n.Classes == "" { n.Classes = c } else
{ n.Classes = n.Classes + " " + c }`. -/
def Node.AddClasses {σ : Type} (n : Node σ) (cls : List GoString) : Node σ :=
  let c := List.intercalate (strBytes " ") cls
  match n with
  | .mk core cs =>
    if core.Classes = [] then .mk { core with Classes := c } cs
    else .mk { core with Classes := core.Classes ++ strBytes " " ++ c } cs

/-- `prenode` (render.go): one record of the preorder entity tree —
entity value, subtree span, handler set. -/
structure prenode (σ : Type) where
  ntt : Entity
  scp : Nat
  hdl : intentHandler σ

/-- `etree` (render.go): the bi-generational entity tree. Appends are done
on `g0`, reads on `g1`. -/
structure etree (σ : Type) where
  g0 : List (prenode σ)
  g1 : List (prenode σ)

/-- The entity values recorded in a generation buffer. -/
def entsOf {σ : Type} (l : List (prenode σ)) : List Entity := l.map prenode.ntt

/-- `func (t *etree) ngen()` (render.go): swap generations and clear the new
current buffer. -/
def etree.ngen {σ : Type} (t : etree σ) : etree σ := { g0 := [], g1 := t.g0 }

/-- `func (t *etree) add(nt Entity) int` (render.go): assert `nt < 10240`,
append an open record, return its index. -/
def etree.add {σ : Type} (t : etree σ) (nt : Entity) :
    Except String (etree σ × Nat) :=
  if nt < 10240 then
    .ok ({ t with g0 := t.g0 ++ [{ ntt := nt, scp := 0, hdl := noHandler σ }] },
         t.g0.length)
  else .error "cannot store more than 10240 entities in event handler"

/-- Replace the element at index `i` (identity if out of range). -/
def setAt {σ : Type} (l : List (prenode σ)) (i : Nat) (f : prenode σ → prenode σ) :
    List (prenode σ) :=
  match l[i]? with
  | some p => l.set i (f p)
  | none => l

/-- `func (t *etree) addHandler(hdl intentHandler)` (render.go): attach the
handler set to the most recently appended record. -/
def etree.addHandler {σ : Type} (t : etree σ) (h : intentHandler σ) : etree σ :=
  { t with g0 := setAt t.g0 (t.g0.length - 1) (fun p => { p with hdl := h }) }

/-- `func (t *etree) closeScope(of int)` (render.go):
`t.g0[of].scp = len(t.g0) - of`. -/
def etree.closeScope {σ : Type} (t : etree σ) (of : Nat) : etree σ :=
  { t with g0 := setAt t.g0 of (fun p => { p with scp := t.g0.length - of }) }

/-- `func (t *etree) locate(nt Entity) int` (render.go): index of the first
record of the previous generation with that entity, `-1` if absent. -/
def etree.locate {σ : Type} (t : etree σ) (nt : Entity) : Int :=
  match t.g1.findIdx? (fun p => decide (p.ntt = nt)) with
  | some i => (i : Int)
  | none => -1

/-- `func (t *etree) children(nt Entity) []prenode` (render.go): the
contiguous previous-generation slice `g1[i : i+g1[i].scp]` rooted at the
record of `nt`, `nil` (here `[]`) if the entity does not exist. -/
def etree.children {σ : Type} (t : etree σ) (nt : Entity) : List (prenode σ) :=
  let i := t.locate nt
  if i = -1 then []
  else (t.g1.drop i.toNat).take (((t.g1[i.toNat]?).map prenode.scp).getD 0)

/-- The renaming loop of `etree.reuse` (render.go): walk the copied records
with index `i`; the record at `i = 0` is renamed to `to`, every other to a
fresh mint from the counter; the caller's callback collects an `(old, new)`
pair for every record whose identity actually changed. -/
def renameRecs {σ : Type} (tgt : Entity) (c : Counter) (i : Nat) :
    List (prenode σ) → List (prenode σ) × Counter × List (Entity × Entity)
  | [] => ([], c, [])
  | p :: ps =>
    let (c1, nt) := if i = 0 then (c, tgt) else c.Inc
    let (rest, c2, prs) := renameRecs tgt c1 (i + 1) ps
    ({ p with ntt := nt } :: rest, c2,
     (if nt ≠ p.ntt then [(p.ntt, nt)] else []) ++ prs)

/-- `func (t *etree) reuse(from, to Entity, c *Counter, it func(from, to Entity))`
(render.go): copy the previous-generation subtree of `from` onto the current
generation, renaming as in `renameRecs`.  The source asserts
`start != -1` where `start := len(t.g0)` — kept here as the guard of the
error branch.  The rename callback is returned as the ordered list of
`(old, new)` pairs it would have been invoked with. -/
def etree.reuse {σ : Type} (t : etree σ) (frm tgt : Entity) (c : Counter) :
    Except String (etree σ × Counter × List (Entity × Entity)) :=
  let start : Int := t.g0.length
  if start = -1 then .error "reusing invalid entity"
  else
    let copied := t.children frm
    let (renamed, c2, prs) := renameRecs tgt c 0 copied
    .ok ({ t with g0 := t.g0 ++ renamed }, c2, prs)

/-- `parents` chain construction (render.go): from index `i` down to `0`,
keep every record whose span encloses `i`, innermost first. -/
def parentsChain {σ : Type} (g1 : List (prenode σ)) (i : Nat) : List (prenode σ) :=
  ((List.range (i + 1)).reverse).foldl
    (fun acc j =>
      match g1[j]? with
      | some p => if p.scp + j > i then acc ++ [p] else acc
      | none => acc) []

/-- `func (t *etree) parents(nt Entity) []prenode` (render.go): ancestor
chain of `nt` in the previous generation; asserts (fatal) that the entity
exists. -/
def etree.parents {σ : Type} (t : etree σ) (nt : Entity) :
    Except String (List (prenode σ)) :=
  let i := t.locate nt
  if i = -1 then .error "entity does not exist in the element tree"
  else .ok (parentsChain t.g1 i.toNat)

/-- `type XAS []byte` (render.go): the mutation program byte stream. -/
abbrev XAS := List Nat

/-- Opcodes (render.go). -/
def OpTerm : Nat := 0
/-- create-element opcode. -/
def OpCreateElement : Nat := 1
/-- set-class opcode. -/
def OpSetClass : Nat := 2
/-- set-id opcode. -/
def OpSetID : Nat := 3
/-- set-attribute opcode. -/
def OpSetAttr : Nat := 4
/-- add-text opcode. -/
def OpAddText : Nat := 5
/-- reuse opcode. -/
def OpReuse : Nat := 6
/-- reassign-id opcode. -/
def OpReID : Nat := 7
/-- advance-to-sibling opcode. -/
def OpNext : Nat := 8

/-- `binary.BigEndian.AppendUint16(vm, uint16(len(val[i])))` (render.go):
the big-endian bytes of `n` truncated to 16 bits. -/
def enc16 (n : Nat) : List Nat := [n % 65536 / 256, n % 256]

/-- `func (vm XAS) AddInstr(code byte, val ...string) XAS` (render.go):
append the opcode byte, then each operand as a 16-bit big-endian length
prefix followed by its raw bytes. -/
def XAS.AddInstr (vm : XAS) (code : Nat) (val : List GoString) : XAS :=
  val.foldl (fun acc s => acc ++ enc16 s.length ++ s) (vm ++ [code])

/-- Reversed decimal digits, fuel-structured (the fuel bounds the digit
count; `decRev` supplies `n` itself, which always suffices). -/
def decRevAux : Nat → Nat → List Nat
  | 0, _ => []
  | _ + 1, 0 => []
  | f + 1, n + 1 => (48 + (n + 1) % 10) :: decRevAux f ((n + 1) / 10)

/-- Reversed decimal digits of `n`, as ASCII bytes. -/
def decRev (n : Nat) : List Nat := decRevAux n n

/-- `strconv.FormatUint(uint64(e), 10)` as bytes: the decimal ASCII digits
of `e`. -/
def decBytes (n : Nat) : GoString :=
  if n = 0 then [48] else (decRev n).reverse

/-- The mutable state threaded through `serialize` (render.go): the program
being emitted, the entity tree, the counter, and the set of visited node
identities (Go mutates a per-node `visited` flag instead). -/
structure SState (σ : Type) where
  vm : XAS
  tr : etree σ
  ctr : Counter
  vis : List Nat

mutual
/-- `func serialize(n *Node, tree *etree, ctr *Counter, vm XAS) XAS`
(render.go): preorder visit of the node tree, emitting the mutation program
and recording entities in the entity tree.  Panics are `Except.error`. -/
def serialize {σ : Type} (n : Node σ) (s : SState σ) : Except String (SState σ) :=
  match n with
  | .mk core cs =>
    if core.nid ∈ s.vis then .error "cycle detected"
    else
      let sv : SState σ := { s with vis := s.vis ++ [core.nid] }
      if core.TagName = [] then .error "empty tag name"
      else if core.TagName = strBytes "nothing" then
        serializeList cs sv
      else if core.TagName = strBytes "reuse" then do
        let vm1 := sv.vm.AddInstr OpReuse [decBytes core.old]
        let (tr2, ctr2, prs) ← sv.tr.reuse core.old core.ntt sv.ctr
        let vm2 := prs.foldl
          (fun a pr => a.AddInstr OpReID [decBytes pr.1, decBytes pr.2]) vm1
        .ok { vm := vm2, tr := tr2, ctr := ctr2, vis := sv.vis }
      else do
        let vm1 := sv.vm.AddInstr OpCreateElement [core.TagName]
        let vm2 := if core.Classes ≠ [] then vm1.AddInstr OpSetClass [core.Classes]
                   else vm1
        -- courtesy entity when a handler is present but no identity was set
        let (ctr1, ntt) := if core.ntt = 0 ∧ hdlAny core.hdl then s.ctr.Inc
                           else (s.ctr, core.ntt)
        let (tr1, idx, vm3) ←
          if ntt ≠ 0 then do
            let (ta, i) ← sv.tr.add ntt
            let tb := if hdlAny core.hdl then ta.addHandler core.hdl else ta
            .ok (tb, i, vm2.AddInstr OpSetID [decBytes ntt])
          else .ok (sv.tr, 0, vm2)
        let vm4 := core.Attrs.foldl
          (fun a at2 => a.AddInstr OpSetAttr [at2.Name, at2.Value]) vm3
        let vm5 := if core.Text ≠ [] then vm4.AddInstr OpAddText [core.Text] else vm4
        let s2 ← serializeList cs { vm := vm5, tr := tr1, ctr := ctr1, vis := sv.vis }
        let tr3 := if ntt ≠ 0 then s2.tr.closeScope idx else s2.tr
        .ok { s2 with vm := s2.vm.AddInstr OpNext [], tr := tr3 }

/-- The serializer's child loop: `for _, c := range n.Children { vm =
serialize(c, tree, ctr, vm) }` (render.go). -/
def serializeList {σ : Type} (cs : List (Node σ)) (s : SState σ) :
    Except String (SState σ) :=
  match cs with
  | [] => .ok s
  | c :: cs2 => do
    let s2 ← serialize c s
    serializeList cs2 s2
end

/-- The engine fields `turncrank` and `ReactToIntent` read and write
(engine.go): the dual-generation entity tree, the generation number, the
counter, and the retained application state `g0` (a `*vctx` in Go). -/
structure EngineModel (σ : Type) where
  et : etree σ
  gen : Nat
  cnt : Counter
  g0 : σ

/-- `New` (engine.go): zero entity tree, generation `0`, zero counter,
initial state. -/
def engineInit {σ : Type} (s : σ) : EngineModel σ :=
  { et := ⟨[], []⟩, gen := 0, cnt := ⟨0⟩, g0 := s }

/-- `func (ng *Engine) turncrank(act Action) XAS` (engine.go): run the
action on a context carrying the engine state; if the result is the
`NoAction` sentinel, do nothing (`randPick()` is `false` by default since
`noActionRandEnabled = false`); otherwise build the widget tree, serialize
it, append the terminate opcode, age the entity tree, advance the
generation, and reseed the counter with the new generation's parity.
`root` stands for `ng.Root.Build`; panics (of the action or the serializer)
are `Except.error`. -/
def turncrank {σ : Type} (root : Context σ → Node σ) (ng : EngineModel σ)
    (act : Context σ → Except String (Context σ)) :
    Except String (Option XAS × EngineModel σ) := do
  let ctx ← act (some ng.g0)
  match ctx with
  | none => .ok (none, ng)
  | some st => do
    let nd := root (some st)
    let s2 ← serialize nd { vm := [], tr := ng.et, ctr := ng.cnt, vis := [] }
    let buf := s2.vm.AddInstr OpTerm []
    .ok (some buf,
         { et := s2.tr.ngen, gen := ng.gen + 1, cnt := ⟨(ng.gen + 1) % 2⟩, g0 := st })

/-- The interaction data `ReactToIntent` consumes (engine.go `CallFrame`):
generation stamp, entity, intent type.  `Seppuku` is intercepted before
dispatch (update_js.go), so the intent index is within the handler array. -/
structure CallFrameM where
  Gen : Nat
  Entity : Entity
  it : Fin 17

/-- The closure `do` built by `func (ng *Engine) ReactToIntent(cf CallFrame)`
(engine.go): if the stamp differs from the current generation, return the
input context unchanged; otherwise walk the previous generation's ancestor
chain of the entity for the innermost handler of the intent type, returning
`NoAction` when none is registered (the fatal `parents` assert is an
`Except.error`). -/
def doIntent {σ : Type} (ng : EngineModel σ) (cf : CallFrameM)
    (ctx : Context σ) : Except String (Context σ) :=
  if cf.Gen ≠ ng.gen then .ok ctx
  else do
    let chain ← ng.et.parents cf.Entity
    match chain.find? (fun p => (p.hdl cf.it).isSome) with
    | none => .ok none
    | some p =>
      match p.hdl cf.it with
      | none => .ok none
      | some h => .ok (h ctx)

mutual
/-- The node-identity sequence a serializer pass visits: the node itself,
then (except under a "reuse" tag, whose children the walk never enters) the
children in order. -/
def reach {σ : Type} : Node σ → List Nat
  | .mk core cs =>
    core.nid :: (if core.TagName = strBytes "reuse" then [] else reachList cs)

/-- `reach`, over a child list. -/
def reachList {σ : Type} : List (Node σ) → List Nat
  | [] => []
  | c :: cs => reach c ++ reachList cs
end

/-- Operand count of each opcode of the wire format (§3 of the format:
terminate 0, create-element 1, set-class 1, set-id 1, set-attribute 2,
add-text 1, reuse 1, reassign-id 2, advance 0); `none` for an invalid
opcode byte. -/
def operandCount : Nat → Option Nat
  | 0 => some 0
  | 1 => some 1
  | 2 => some 1
  | 3 => some 1
  | 4 => some 2
  | 5 => some 1
  | 6 => some 1
  | 7 => some 2
  | 8 => some 0
  | _ => none

/-- Read one length-prefixed string: a big-endian 16-bit length, then that
many raw bytes.  Fails if the stream is too short. -/
def readStr (l : List Nat) : Option (GoString × List Nat) :=
  match l with
  | b1 :: b2 :: rest =>
    let len := b1 * 256 + b2
    if len ≤ rest.length then some (rest.take len, rest.drop len) else none
  | _ => none

/-- Read `k` length-prefixed strings. -/
def readStrs : Nat → List Nat → Option (List GoString × List Nat)
  | 0, l => some ([], l)
  | k + 1, l => do
    let (s, l2) ← readStr l
    let (ss, l3) ← readStrs k l2
    some (s :: ss, l3)

/-- Decode instructions until the terminate opcode: one opcode byte, then
the declared operand strings.  Returns the decoded instructions (terminate
included, last) and the bytes remaining after it; `none` on an invalid
opcode, a truncated operand, or a missing terminate. -/
def decodeInstrs : Nat → List Nat → Option (List (Nat × List GoString) × List Nat)
  | _, [] => none
  | 0, _ :: _ => none
  | fuel + 1, op :: rest => do
    let k ← operandCount op
    let (ss, rem) ← readStrs k rest
    if op = OpTerm then some ([(op, ss)], rem)
    else do
      let (is, rem2) ← decodeInstrs fuel rem
      some ((op, ss) :: is, rem2)

/-- Decode a full mutation program (fuel: one byte is consumed per
instruction, so the length suffices). -/
def decodeProg (l : List Nat) : Option (List (Nat × List GoString) × List Nat) :=
  decodeInstrs l.length l

/-! ### Basic facts about the embedding -/

theorem strBytes_nothing_ne_nil : (strBytes "nothing" = []) = False := by decide

theorem strBytes_reuse_ne_nil : (strBytes "reuse" = []) = False := by decide

theorem strBytes_reuse_ne_nothing : (strBytes "reuse" = strBytes "nothing") = False := by
  decide

/-- A fold that only appends to its accumulator factors over the initial
value. -/
theorem foldl_emit {α : Type} (g : α → List Nat) :
    ∀ (l : List α) (x : List Nat),
      l.foldl (fun a s => a ++ g s) x = x ++ l.foldl (fun a s => a ++ g s) [] := by
  intro l
  induction l with
  | nil => intro x; simp
  | cons a l ih =>
    intro x
    simp only [List.foldl_cons]
    rw [ih (x ++ g a), ih ([] ++ g a)]
    simp

/-- `AddInstr` appends to the program. -/
theorem AddInstr_eq (vm : XAS) (c : Nat) (v : List GoString) :
    XAS.AddInstr vm c v = vm ++ XAS.AddInstr [] c v := by
  simp only [XAS.AddInstr, List.append_assoc]
  rw [foldl_emit (fun s => enc16 s.length ++ s) v (vm ++ [c]),
      foldl_emit (fun s => enc16 s.length ++ s) v ([] ++ [c])]
  simp

/-- A fold of `AddInstr` instructions appends to the program. -/
theorem foldl_instr_emit {α : Type} (c : Nat) (h : α → List GoString) :
    ∀ (l : List α) (x : XAS),
      l.foldl (fun a pr => XAS.AddInstr a c (h pr)) x
        = x ++ l.foldl (fun a pr => XAS.AddInstr a c (h pr)) [] := by
  intro l
  induction l with
  | nil => intro x; simp
  | cons a l ih =>
    intro x
    simp only [List.foldl_cons]
    rw [ih (XAS.AddInstr x c (h a)), ih (XAS.AddInstr [] c (h a)),
        AddInstr_eq x c (h a)]
    simp

/-- The `reuse` assert `start != -1` never fires: its guard is a `Nat` cast. -/
theorem reuse_ok {σ : Type} (t : etree σ) (frm tgt : Entity) (c : Counter) :
    t.reuse frm tgt c =
      .ok ({ t with g0 := t.g0 ++ (renameRecs tgt c 0 (t.children frm)).1 },
           (renameRecs tgt c 0 (t.children frm)).2.1,
           (renameRecs tgt c 0 (t.children frm)).2.2) := by
  rw [etree.reuse]
  simp

/-- An already-visited node is rejected with the cycle panic before anything
else is examined. -/
theorem serialize_visited {σ : Type} (core : NodeCore σ) (cs : List (Node σ))
    (s : SState σ) (h : core.nid ∈ s.vis) :
    serialize (.mk core cs) s = .error "cycle detected" := by
  rw [serialize]
  simp [h]

/-- Unfolding of the "nothing" branch of the serializer. -/
theorem serialize_nothing {σ : Type} (core : NodeCore σ) (cs : List (Node σ))
    (s : SState σ) (h1 : core.nid ∉ s.vis) (h2 : core.TagName = strBytes "nothing") :
    serialize (.mk core cs) s = serializeList cs { s with vis := s.vis ++ [core.nid] } := by
  rw [serialize]
  simp [h1, h2, strBytes_nothing_ne_nil]

/-- Unfolding of the "reuse" branch of the serializer. -/
theorem serialize_reuse {σ : Type} (core : NodeCore σ) (cs : List (Node σ))
    (s : SState σ) (h1 : core.nid ∉ s.vis) (h2 : core.TagName = strBytes "reuse") :
    serialize (.mk core cs) s =
      .ok { vm := (renameRecs core.ntt s.ctr 0 (s.tr.children core.old)).2.2.foldl
                (fun a pr => XAS.AddInstr a OpReID [decBytes pr.1, decBytes pr.2])
                (XAS.AddInstr s.vm OpReuse [decBytes core.old]),
            tr := { s.tr with
                    g0 := s.tr.g0 ++ (renameRecs core.ntt s.ctr 0 (s.tr.children core.old)).1 },
            ctr := (renameRecs core.ntt s.ctr 0 (s.tr.children core.old)).2.1,
            vis := s.vis ++ [core.nid] } := by
  rw [serialize]
  simp [h1, h2, strBytes_reuse_ne_nil, strBytes_reuse_ne_nothing]
  rw [reuse_ok]
  rfl

/-- The attribute instructions of an element node. -/
def attrsFold (ats : List Attr) (vm : XAS) : XAS :=
  ats.foldl (fun a at2 => XAS.AddInstr a OpSetAttr [at2.Name, at2.Value]) vm

/-- The program bytes an element node emits before its children, when it
records no entity. -/
def elemVM {σ : Type} (core : NodeCore σ) (vm : XAS) : XAS :=
  let vm1 := XAS.AddInstr vm OpCreateElement [core.TagName]
  let vm2 := if core.Classes ≠ [] then XAS.AddInstr vm1 OpSetClass [core.Classes] else vm1
  let vm4 := attrsFold core.Attrs vm2
  if core.Text ≠ [] then XAS.AddInstr vm4 OpAddText [core.Text] else vm4

/-- The program bytes an element node emits before its children, when it
records entity `ntt`. -/
def elemVMid {σ : Type} (core : NodeCore σ) (ntt : Entity) (vm : XAS) : XAS :=
  let vm1 := XAS.AddInstr vm OpCreateElement [core.TagName]
  let vm2 := if core.Classes ≠ [] then XAS.AddInstr vm1 OpSetClass [core.Classes] else vm1
  let vm3 := XAS.AddInstr vm2 OpSetID [decBytes ntt]
  let vm4 := attrsFold core.Attrs vm3
  if core.Text ≠ [] then XAS.AddInstr vm4 OpAddText [core.Text] else vm4

theorem serialize_elem_zero {σ : Type} (core : NodeCore σ) (cs : List (Node σ))
    (s : SState σ) (ctr1 : Counter)
    (h1 : core.nid ∉ s.vis) (h2 : ¬ core.TagName = [])
    (h3 : ¬ core.TagName = strBytes "nothing") (h4 : ¬ core.TagName = strBytes "reuse")
    (hcn : (if core.ntt = 0 ∧ hdlAny core.hdl = true then s.ctr.Inc
            else (s.ctr, core.ntt)) = (ctr1, 0)) :
    serialize (.mk core cs) s =
      (serializeList cs
        { vm := elemVM core s.vm, tr := s.tr, ctr := ctr1,
          vis := s.vis ++ [core.nid] }).bind
        (fun s2 => .ok { vm := XAS.AddInstr s2.vm OpNext [], tr := s2.tr,
                         ctr := s2.ctr, vis := s2.vis }) := by
  rw [serialize]
  simp only [h1, h2, h3, h4, if_neg, if_false, ite_false, not_false_iff]
  rw [hcn]
  simp only [Bind.bind, Except.bind, elemVM, attrsFold]
  rfl

theorem setAt_append {σ : Type} (A : List (prenode σ)) (p : prenode σ)
    (C : List (prenode σ)) (f : prenode σ → prenode σ) :
    setAt (A ++ p :: C) A.length f = A ++ f p :: C := by
  have hx : (A ++ p :: C)[A.length]? = some p := by
    rw [List.getElem?_append_right (Nat.le_refl _)]
    simp
  rw [setAt, hx]
  simp only []
  rw [List.set_append_right _ _ (Nat.le_refl _)]
  simp

theorem addHandler_append {σ : Type} (t : etree σ) (A : List (prenode σ))
    (p : prenode σ) (h : intentHandler σ) (hg : t.g0 = A ++ [p]) :
    t.addHandler h = { t with g0 := A ++ [{ p with hdl := h }] } := by
  rw [etree.addHandler, hg]
  have hl : (A ++ [p]).length - 1 = A.length := by simp
  rw [hl, setAt_append]

theorem serialize_elem_id {σ : Type} (core : NodeCore σ) (cs : List (Node σ))
    (s : SState σ) (ctr1 : Counter) (ntt : Entity)
    (h1 : core.nid ∉ s.vis) (h2 : ¬ core.TagName = [])
    (h3 : ¬ core.TagName = strBytes "nothing") (h4 : ¬ core.TagName = strBytes "reuse")
    (hcn : (if core.ntt = 0 ∧ hdlAny core.hdl = true then s.ctr.Inc
            else (s.ctr, core.ntt)) = (ctr1, ntt))
    (hn0 : ntt ≠ 0) (h10 : ntt < 10240) :
    serialize (.mk core cs) s =
      (serializeList cs
        { vm := elemVMid core ntt s.vm,
          tr := { s.tr with g0 := s.tr.g0 ++
                    [{ ntt := ntt, scp := 0,
                       hdl := if hdlAny core.hdl then core.hdl else noHandler σ }] },
          ctr := ctr1, vis := s.vis ++ [core.nid] }).bind
        (fun s2 => .ok { vm := XAS.AddInstr s2.vm OpNext [],
                         tr := s2.tr.closeScope s.tr.g0.length,
                         ctr := s2.ctr, vis := s2.vis }) := by
  rw [serialize]
  simp only [h1, h2, h3, h4, if_neg, if_false, ite_false, not_false_iff]
  rw [hcn]
  simp only [hn0, ne_eq, not_false_iff, if_true, ite_true, etree.add, h10,
             Bind.bind, Except.bind, elemVMid, attrsFold]
  cases hh : hdlAny core.hdl with
  | true =>
    rw [addHandler_append _ s.tr.g0 _ _ rfl]
    rfl
  | false => rfl

theorem serialize_elem_overflow {σ : Type} (core : NodeCore σ) (cs : List (Node σ))
    (s : SState σ) (ctr1 : Counter) (ntt : Entity)
    (h1 : core.nid ∉ s.vis) (h2 : ¬ core.TagName = [])
    (h3 : ¬ core.TagName = strBytes "nothing") (h4 : ¬ core.TagName = strBytes "reuse")
    (hcn : (if core.ntt = 0 ∧ hdlAny core.hdl = true then s.ctr.Inc
            else (s.ctr, core.ntt)) = (ctr1, ntt))
    (hn0 : ntt ≠ 0) (h10 : ¬ ntt < 10240) :
    serialize (.mk core cs) s =
      .error "cannot store more than 10240 entities in event handler" := by
  rw [serialize]
  simp only [h1, h2, h3, h4, if_neg, if_false, ite_false, not_false_iff]
  rw [hcn]
  simp only [hn0, ne_eq, not_false_iff, if_true, ite_true, etree.add, h10,
             Bind.bind, Except.bind]
  rfl

theorem AddInstr_append (x y : XAS) (c : Nat) (v : List GoString) :
    XAS.AddInstr (x ++ y) c v = x ++ XAS.AddInstr y c v := by
  rw [AddInstr_eq (x ++ y) c v, AddInstr_eq y c v, List.append_assoc]

theorem attrsFold_append (ats : List Attr) (x y : XAS) :
    attrsFold ats (x ++ y) = x ++ attrsFold ats y := by
  simp only [attrsFold]
  rw [foldl_instr_emit _ _ ats (x ++ y), foldl_instr_emit _ _ ats y, List.append_assoc]

theorem elemVM_emit {σ : Type} (core : NodeCore σ) (vm : XAS) :
    elemVM core vm = vm ++ elemVM core [] := by
  simp only [elemVM]
  by_cases hc : core.Classes = [] <;> by_cases ht : core.Text = [] <;>
    simp only [hc, ht, ne_eq, not_true_eq_false, not_false_eq_true, if_true,
               if_false, ite_true, ite_false] <;>
    (conv_lhs => rw [← List.append_nil vm]) <;>
    simp only [AddInstr_append, attrsFold_append]

theorem elemVMid_emit {σ : Type} (core : NodeCore σ) (ntt : Entity) (vm : XAS) :
    elemVMid core ntt vm = vm ++ elemVMid core ntt [] := by
  simp only [elemVMid]
  by_cases hc : core.Classes = [] <;> by_cases ht : core.Text = [] <;>
    simp only [hc, ht, ne_eq, not_true_eq_false, not_false_eq_true, if_true,
               if_false, ite_true, ite_false] <;>
    (conv_lhs => rw [← List.append_nil vm]) <;>
    simp only [AddInstr_append, attrsFold_append]

theorem reach_mk {σ : Type} (core : NodeCore σ) (cs : List (Node σ)) :
    reach (Node.mk core cs) =
      core.nid :: (if core.TagName = strBytes "reuse" then [] else reachList cs) := by
  rw [reach]

theorem reachList_nil {σ : Type} : reachList ([] : List (Node σ)) = [] := by
  rw [reachList]

theorem reachList_cons {σ : Type} (c : Node σ) (cs : List (Node σ)) :
    reachList (c :: cs) = reach c ++ reachList cs := by
  rw [reachList]

mutual
theorem serialize_shift {σ : Type} (n : Node σ) (s s' : SState σ)
    (h : serialize n s = .ok s') :
    ∃ E recs,
      s'.vm = s.vm ++ E ∧
      s'.tr.g0 = s.tr.g0 ++ recs ∧
      s'.tr.g1 = s.tr.g1 ∧
      s'.vis = s.vis ++ reach n ∧
      (reach n).Nodup ∧
      (∀ a ∈ reach n, a ∉ s.vis) ∧
      (∀ vm2 vis2, (∀ a ∈ reach n, a ∉ vis2) →
        serialize n { vm := vm2, tr := s.tr, ctr := s.ctr, vis := vis2 } =
          .ok { vm := vm2 ++ E, tr := s'.tr, ctr := s'.ctr, vis := vis2 ++ reach n }) := by
  match n with
  | .mk core cs =>
  by_cases hv : core.nid ∈ s.vis
  · rw [serialize_visited core cs s hv] at h
    exact absurd h (by simp)
  by_cases ht0 : core.TagName = []
  · rw [serialize] at h
    simp [hv, ht0] at h
  by_cases htn : core.TagName = strBytes "nothing"
  · have htr : ¬ core.TagName = strBytes "reuse" := by
      rw [htn]; intro hx; exact absurd hx (by decide)
    have hrr : reach (Node.mk core cs) = core.nid :: reachList cs := by
      rw [reach_mk]; simp [htr]
    rw [serialize_nothing _ _ _ hv htn] at h
    obtain ⟨E, recs, hvm, hg0, hg1, hvis, hnd, hdj, hsh⟩ := serializeList_shift cs _ _ h
    refine ⟨E, recs, hvm, hg0, hg1, ?_, ?_, ?_, ?_⟩
    · rw [hrr, hvis]; simp
    · rw [hrr, List.nodup_cons]
      exact ⟨fun hmem => by simpa using (hdj _ hmem), hnd⟩
    · rw [hrr]
      intro a ha
      rcases List.mem_cons.mp ha with rfl | ha2
      · exact hv
      · intro hx; exact (hdj _ ha2) (by simp [hx])
    · intro vm2 vis2 hvv
      have hnv2 : core.nid ∉ vis2 := hvv _ (by rw [hrr]; exact List.mem_cons_self _ _)
      rw [serialize_nothing _ _ _ hnv2 htn]
      have hstep := hsh vm2 (vis2 ++ [core.nid]) ?_
      · rw [hstep]
        rw [hrr]
        simp
      · intro a ha
        simp only [List.mem_append, List.mem_singleton]
        push_neg
        refine ⟨fun hx => (hvv _ (by rw [hrr]; exact List.mem_cons_of_mem _ ha)) hx, ?_⟩
        intro hx
        exact (hdj _ ha) (by simp [hx])
  by_cases htu : core.TagName = strBytes "reuse"
  · have hrr : reach (Node.mk core cs) = [core.nid] := by
      rw [reach_mk]; simp [htu]
    rw [serialize_reuse _ _ _ hv htu] at h
    simp only [Except.ok.injEq] at h
    subst h
    refine ⟨XAS.AddInstr [] OpReuse [decBytes core.old] ++
              (renameRecs core.ntt s.ctr 0 (s.tr.children core.old)).2.2.foldl
                (fun a pr => XAS.AddInstr a OpReID [decBytes pr.1, decBytes pr.2]) [],
            (renameRecs core.ntt s.ctr 0 (s.tr.children core.old)).1, ?_, ?_, ?_, ?_, ?_, ?_, ?_⟩
    · show (renameRecs core.ntt s.ctr 0 (s.tr.children core.old)).2.2.foldl
          (fun a pr => XAS.AddInstr a OpReID [decBytes pr.1, decBytes pr.2])
          (XAS.AddInstr s.vm OpReuse [decBytes core.old]) = _
      rw [foldl_instr_emit (α := Entity × Entity) OpReID
            (fun q => [decBytes q.1, decBytes q.2]) _
            (XAS.AddInstr s.vm OpReuse [decBytes core.old]),
          AddInstr_eq s.vm, List.append_assoc]
    · rfl
    · rfl
    · rw [hrr]
    · rw [hrr]; simp
    · rw [hrr]; simpa using hv
    · intro vm2 vis2 hvv
      have hnv2 : core.nid ∉ vis2 := hvv _ (by rw [hrr]; simp)
      rw [serialize_reuse _ _ _ hnv2 htu]
      rw [hrr]
      congr 1
      simp only [SState.mk.injEq, and_true, true_and]
      rw [foldl_instr_emit (α := Entity × Entity) OpReID
            (fun q => [decBytes q.1, decBytes q.2]) _
            (XAS.AddInstr vm2 OpReuse [decBytes core.old]),
          AddInstr_eq vm2, List.append_assoc]
  -- element branch
  · have hrr : reach (Node.mk core cs) = core.nid :: reachList cs := by
      rw [reach_mk]; simp [htu]
    have hcn : (if core.ntt = 0 ∧ hdlAny core.hdl = true then s.ctr.Inc
                else (s.ctr, core.ntt)) =
        ((if core.ntt = 0 ∧ hdlAny core.hdl = true then s.ctr.Inc
          else (s.ctr, core.ntt)).1,
         (if core.ntt = 0 ∧ hdlAny core.hdl = true then s.ctr.Inc
          else (s.ctr, core.ntt)).2) := rfl
    set pr := (if core.ntt = 0 ∧ hdlAny core.hdl = true then s.ctr.Inc
               else (s.ctr, core.ntt)) with hpr
    by_cases hn0 : pr.2 = 0
    · rw [serialize_elem_zero core cs s pr.1 hv ht0 htn htu (by rw [← hpr, ← hn0])] at h
      cases hsl : serializeList cs
          { vm := elemVM core s.vm, tr := s.tr, ctr := pr.1, vis := s.vis ++ [core.nid] } with
      | error e => rw [hsl] at h; exact absurd h (by simp [Except.bind])
      | ok s2 =>
        rw [hsl] at h
        simp only [Except.bind, Except.ok.injEq] at h
        subst h
        obtain ⟨E, recs, hvm, hg0, hg1, hvis, hnd, hdj, hsh⟩ := serializeList_shift cs _ _ hsl
        simp only at hvm hg0 hg1 hvis
        refine ⟨elemVM core [] ++ E ++ XAS.AddInstr [] OpNext [], recs, ?_, hg0, hg1, ?_, ?_, ?_, ?_⟩
        · show XAS.AddInstr s2.vm OpNext [] = _
          rw [AddInstr_eq s2.vm, hvm, elemVM_emit]
          simp
        · rw [hrr, hvis]; simp
        · rw [hrr, List.nodup_cons]
          exact ⟨fun hmem => by simpa using (hdj _ hmem), hnd⟩
        · rw [hrr]
          intro a ha
          rcases List.mem_cons.mp ha with rfl | ha2
          · exact hv
          · intro hx; exact (hdj _ ha2) (by simp [hx])
        · intro vm2 vis2 hvv
          have hnv2 : core.nid ∉ vis2 := hvv _ (by rw [hrr]; exact List.mem_cons_self _ _)
          rw [serialize_elem_zero core cs _ pr.1 hnv2 ht0 htn htu (by rw [← hpr, ← hn0])]
          have hstep := hsh (elemVM core vm2) (vis2 ++ [core.nid]) ?_
          · rw [hstep]
            simp only [Except.bind, Except.ok.injEq, SState.mk.injEq]
            refine ⟨?_, ?_⟩
            · rw [AddInstr_eq, elemVM_emit]
              simp
            · rw [hrr]; simp
          · intro a ha
            simp only [List.mem_append, List.mem_singleton]
            push_neg
            refine ⟨fun hx => (hvv _ (by rw [hrr]; exact List.mem_cons_of_mem _ ha)) hx, ?_⟩
            intro hx
            exact (hdj _ ha) (by simp [hx])
    · by_cases h10 : pr.2 < 10240
      · rw [serialize_elem_id core cs s pr.1 pr.2 hv ht0 htn htu (by rw [← hpr]) hn0 h10] at h
        cases hsl : serializeList cs
            { vm := elemVMid core pr.2 s.vm,
              tr := { s.tr with g0 := s.tr.g0 ++
                        [{ ntt := pr.2, scp := 0,
                           hdl := if hdlAny core.hdl then core.hdl else noHandler σ }] },
              ctr := pr.1, vis := s.vis ++ [core.nid] } with
        | error e => rw [hsl] at h; exact absurd h (by simp [Except.bind])
        | ok s2 =>
          rw [hsl] at h
          simp only [Except.bind, Except.ok.injEq] at h
          subst h
          obtain ⟨E, recs, hvm, hg0, hg1, hvis, hnd, hdj, hsh⟩ := serializeList_shift cs _ _ hsl
          simp only at hvm hg0 hg1 hvis
          have hg0' : s2.tr.g0 = s.tr.g0 ++
              ({ ntt := pr.2, scp := 0,
                 hdl := if hdlAny core.hdl then core.hdl else noHandler σ } :: recs) := by
            rw [hg0]; simp
          have hclose : s2.tr.closeScope s.tr.g0.length =
              { s2.tr with g0 := s.tr.g0 ++
                  ({ ntt := pr.2, scp := s2.tr.g0.length - s.tr.g0.length,
                     hdl := if hdlAny core.hdl then core.hdl else noHandler σ } :: recs) } := by
            rw [etree.closeScope, hg0']
            rw [setAt_append]
          refine ⟨elemVMid core pr.2 [] ++ E ++ XAS.AddInstr [] OpNext [],
                  { ntt := pr.2, scp := s2.tr.g0.length - s.tr.g0.length,
                    hdl := if hdlAny core.hdl then core.hdl else noHandler σ } :: recs,
                  ?_, ?_, ?_, ?_, ?_, ?_, ?_⟩
          · show XAS.AddInstr s2.vm OpNext [] = _
            rw [AddInstr_eq s2.vm, hvm, elemVMid_emit]
            simp
          · show (s2.tr.closeScope s.tr.g0.length).g0 = _
            rw [hclose]
          · show (s2.tr.closeScope s.tr.g0.length).g1 = _
            rw [hclose]; exact hg1
          · rw [hrr, hvis]; simp
          · rw [hrr, List.nodup_cons]
            exact ⟨fun hmem => by simpa using (hdj _ hmem), hnd⟩
          · rw [hrr]
            intro a ha
            rcases List.mem_cons.mp ha with rfl | ha2
            · exact hv
            · intro hx; exact (hdj _ ha2) (by simp [hx])
          · intro vm2 vis2 hvv
            have hnv2 : core.nid ∉ vis2 := hvv _ (by rw [hrr]; exact List.mem_cons_self _ _)
            rw [serialize_elem_id core cs _ pr.1 pr.2 hnv2 ht0 htn htu (by rw [← hpr]) hn0 h10]
            have hstep := hsh (elemVMid core pr.2 vm2) (vis2 ++ [core.nid]) ?_
            · rw [hstep]
              simp only [Except.bind, Except.ok.injEq, SState.mk.injEq]
              refine ⟨?_, ?_, ?_⟩
              · rw [AddInstr_eq, elemVMid_emit]
                simp
              · trivial
              · rw [hrr]; simp
            · intro a ha
              simp only [List.mem_append, List.mem_singleton]
              push_neg
              refine ⟨fun hx => (hvv _ (by rw [hrr]; exact List.mem_cons_of_mem _ ha)) hx, ?_⟩
              intro hx
              exact (hdj _ ha) (by simp [hx])
      · rw [serialize_elem_overflow core cs s pr.1 pr.2 hv ht0 htn htu (by rw [← hpr]) hn0 h10] at h
        exact absurd h (by simp)
termination_by sizeOf n

theorem serializeList_shift {σ : Type} (cs : List (Node σ)) (s s' : SState σ)
    (h : serializeList cs s = .ok s') :
    ∃ E recs,
      s'.vm = s.vm ++ E ∧
      s'.tr.g0 = s.tr.g0 ++ recs ∧
      s'.tr.g1 = s.tr.g1 ∧
      s'.vis = s.vis ++ reachList cs ∧
      (reachList cs).Nodup ∧
      (∀ a ∈ reachList cs, a ∉ s.vis) ∧
      (∀ vm2 vis2, (∀ a ∈ reachList cs, a ∉ vis2) →
        serializeList cs { vm := vm2, tr := s.tr, ctr := s.ctr, vis := vis2 } =
          .ok { vm := vm2 ++ E, tr := s'.tr, ctr := s'.ctr, vis := vis2 ++ reachList cs }) := by
  match cs with
  | [] =>
    rw [serializeList] at h
    simp only [Except.ok.injEq] at h
    subst h
    refine ⟨[], [], by simp, by simp, rfl, by rw [reachList_nil]; simp,
            by rw [reachList_nil]; simp, by rw [reachList_nil]; simp, ?_⟩
    intro vm2 vis2 _
    rw [serializeList]
    rw [reachList_nil]
    simp
  | c :: cs2 =>
    rw [serializeList] at h
    cases hm : serialize c s with
    | error e => rw [hm] at h; exact absurd h (by simp [Bind.bind, Except.bind])
    | ok sm =>
      rw [hm] at h
      simp only [Bind.bind, Except.bind] at h
      obtain ⟨E1, recs1, hvm1, hg01, hg11, hvis1, hnd1, hdj1, hsh1⟩ := serialize_shift c s sm hm
      obtain ⟨E2, recs2, hvm2, hg02, hg12, hvis2, hnd2, hdj2, hsh2⟩ := serializeList_shift cs2 sm s' h
      have hdisj : ∀ a ∈ reachList cs2, a ∉ reach c := by
        intro a ha hx
        have := hdj2 _ ha
        rw [hvis1] at this
        exact this (by simp [hx])
      refine ⟨E1 ++ E2, recs1 ++ recs2, ?_, ?_, ?_, ?_, ?_, ?_, ?_⟩
      · rw [hvm2, hvm1, List.append_assoc]
      · rw [hg02, hg01, List.append_assoc]
      · rw [hg12, hg11]
      · rw [reachList_cons, hvis2, hvis1, List.append_assoc]
      · rw [reachList_cons, List.nodup_append]
        exact ⟨hnd1, hnd2, fun a ha hb => (hdisj a hb) ha⟩
      · rw [reachList_cons]
        intro a ha
        rcases List.mem_append.mp ha with ha1 | ha2
        · exact hdj1 _ ha1
        · intro hx
          have := hdj2 _ ha2
          rw [hvis1] at this
          exact this (by simp [hx])
      · intro vm2 vis2 hvv
        rw [serializeList]
        have hstep1 := hsh1 vm2 vis2 (fun a ha => hvv _ (by rw [reachList_cons]; exact List.mem_append_left _ ha))
        rw [hstep1]
        simp only [Bind.bind, Except.bind]
        have hstep2 := hsh2 (vm2 ++ E1) (vis2 ++ reach c) ?_
        · rw [hstep2]
          rw [reachList_cons]
          simp [List.append_assoc]
        · intro a ha
          simp only [List.mem_append]
          push_neg
          exact ⟨fun hx => (hvv _ (by rw [reachList_cons]; exact List.mem_append_right _ ha)) hx,
                 fun hx => (hdisj _ ha) hx⟩
termination_by sizeOf cs
end

theorem serializeList_append {σ : Type} (as bs : List (Node σ)) (s : SState σ) :
    serializeList (as ++ bs) s = (serializeList as s).bind (serializeList bs) := by
  induction as generalizing s with
  | nil =>
    rw [serializeList]
    rfl
  | cons a as ih =>
    rw [List.cons_append, serializeList, serializeList]
    cases hm : serialize a s with
    | error e => simp [Bind.bind, Except.bind]
    | ok sm =>
      simp only [Bind.bind, Except.bind]
      exact ih sm

/-- Splicing out a "nothing" node at the list level: same program, entity
tree and counter; only the visited-identity bookkeeping differs. -/
theorem serializeList_nothing_splice {σ : Type} (xs cs ys : List (Node σ))
    (nc : NodeCore σ) (s t : SState σ)
    (htag : nc.TagName = strBytes "nothing")
    (h : serializeList (xs ++ .mk nc cs :: ys) s = .ok t) :
    ∃ vis2, serializeList (xs ++ cs ++ ys) s =
      .ok { vm := t.vm, tr := t.tr, ctr := t.ctr, vis := vis2 } := by
  rw [serializeList_append] at h
  cases hxs : serializeList xs s with
  | error e => rw [hxs] at h; exact absurd h (by simp [Except.bind])
  | ok s1 =>
    rw [hxs] at h
    simp only [Except.bind] at h
    obtain ⟨vm1, tr1, ctr1, vis1⟩ := s1
    rw [serializeList] at h
    cases hnn : serialize (Node.mk nc cs) ⟨vm1, tr1, ctr1, vis1⟩ with
    | error e => rw [hnn] at h; exact absurd h (by simp [Bind.bind, Except.bind])
    | ok s2 =>
      rw [hnn] at h
      simp only [Bind.bind, Except.bind] at h
      by_cases hv : nc.nid ∈ vis1
      · rw [serialize_visited nc cs _ hv] at hnn
        exact absurd hnn (by simp)
      rw [serialize_nothing nc cs _ hv htag] at hnn
      obtain ⟨Ec, recsc, hvmc, hg0c, hg1c, hvisc, hndc, hdjc, hshc⟩ :=
        serializeList_shift cs _ _ hnn
      obtain ⟨Ey, recsy, hvmy, hg0y, hg1y, hvisy, hndy, hdjy, hshy⟩ :=
        serializeList_shift ys s2 t h
      simp only at hvmc hg0c hg1c hvisc hdjc
      rw [List.append_assoc, serializeList_append xs (cs ++ ys), hxs]
      simp only [Except.bind]
      rw [serializeList_append cs ys]
      have hcs := hshc vm1 vis1 (fun a ha hx => (hdjc _ ha) (by simp [hx]))
      rw [hcs]
      simp only [Except.bind]
      have hys := hshy (vm1 ++ Ec) (vis1 ++ reachList cs) ?_
      · obtain ⟨vm2c, tr2c, ctr2c, vis2c⟩ := s2
        simp only at hvmc hvisc hys hvmy ⊢
        subst hvmc
        rw [hys, hvmy]
        exact ⟨_, rfl⟩
      · intro a ha hx
        have := hdjy _ ha
        rw [hvisc] at this
        simp only [List.mem_append] at hx this
        rcases hx with hx | hx
        · exact this (by simp [hx])
        · exact this (by simp [hx])

/-- A structural no-op ("nothing"-tagged) child is invisible: the parent
serializes to the same program, entity tree and counter as with the no-op
node's children spliced directly in its place. -/
theorem transparent_node_invisible {σ : Type} (pc nc : NodeCore σ)
    (xs cs ys : List (Node σ)) (s out : SState σ)
    (htag : nc.TagName = strBytes "nothing")
    (h : serialize (.mk pc (xs ++ .mk nc cs :: ys)) s = .ok out) :
    ∃ vis2, serialize (.mk pc (xs ++ cs ++ ys)) s =
      .ok { vm := out.vm, tr := out.tr, ctr := out.ctr, vis := vis2 } := by
  by_cases hv : pc.nid ∈ s.vis
  · rw [serialize_visited _ _ _ hv] at h; exact absurd h (by simp)
  by_cases ht0 : pc.TagName = []
  · rw [serialize] at h; simp [hv, ht0] at h
  by_cases htn : pc.TagName = strBytes "nothing"
  · rw [serialize_nothing _ _ _ hv htn] at h
    obtain ⟨vis2, hres⟩ := serializeList_nothing_splice xs cs ys nc _ _ htag h
    exact ⟨vis2, by rw [serialize_nothing _ _ _ hv htn]; exact hres⟩
  by_cases htu : pc.TagName = strBytes "reuse"
  · rw [serialize_reuse _ _ _ hv htu] at h
    simp only [Except.ok.injEq] at h
    subst h
    exact ⟨s.vis ++ [pc.nid], by rw [serialize_reuse _ _ _ hv htu]⟩
  · set pr := (if pc.ntt = 0 ∧ hdlAny pc.hdl = true then s.ctr.Inc
               else (s.ctr, pc.ntt)) with hpr
    by_cases hn0 : pr.2 = 0
    · rw [serialize_elem_zero pc _ s pr.1 hv ht0 htn htu (by rw [← hpr, ← hn0])] at h
      cases hsl : serializeList (xs ++ .mk nc cs :: ys)
          { vm := elemVM pc s.vm, tr := s.tr, ctr := pr.1, vis := s.vis ++ [pc.nid] } with
      | error e => rw [hsl] at h; exact absurd h (by simp [Except.bind])
      | ok s2 =>
        rw [hsl] at h
        simp only [Except.bind, Except.ok.injEq] at h
        subst h
        obtain ⟨vis2, hres⟩ := serializeList_nothing_splice xs cs ys nc _ _ htag hsl
        refine ⟨vis2, ?_⟩
        rw [serialize_elem_zero pc _ s pr.1 hv ht0 htn htu (by rw [← hpr, ← hn0]), hres]
        rfl
    · by_cases h10 : pr.2 < 10240
      · rw [serialize_elem_id pc _ s pr.1 pr.2 hv ht0 htn htu (by rw [← hpr]) hn0 h10] at h
        cases hsl : serializeList (xs ++ .mk nc cs :: ys)
            { vm := elemVMid pc pr.2 s.vm,
              tr := { s.tr with g0 := s.tr.g0 ++
                        [{ ntt := pr.2, scp := 0,
                           hdl := if hdlAny pc.hdl then pc.hdl else noHandler σ }] },
              ctr := pr.1, vis := s.vis ++ [pc.nid] } with
        | error e => rw [hsl] at h; exact absurd h (by simp [Except.bind])
        | ok s2 =>
          rw [hsl] at h
          simp only [Except.bind, Except.ok.injEq] at h
          subst h
          obtain ⟨vis2, hres⟩ := serializeList_nothing_splice xs cs ys nc _ _ htag hsl
          refine ⟨vis2, ?_⟩
          rw [serialize_elem_id pc _ s pr.1 pr.2 hv ht0 htn htu (by rw [← hpr]) hn0 h10, hres]
          rfl
      · rw [serialize_elem_overflow pc _ s pr.1 pr.2 hv ht0 htn htu
              (by rw [← hpr]) hn0 h10] at h
        exact absurd h (by simp)

/-- `2` divides `2^32`. -/
theorem two_dvd_U32 : 2 ∣ U32 := by
  rw [U32]
  omega

/-- `Counter.Inc` preserves the counter's parity (the modulus `2^32` is
even, so wraparound preserves parity too). -/
theorem Inc_parity (c : Counter) : (c.Inc).1.val % 2 = c.val % 2 ∧
    (c.Inc).2 % 2 = c.val % 2 := by
  have h := Nat.mod_mod_of_dvd (c.val + 2) two_dvd_U32
  constructor
  · show (c.val + 2) % U32 % 2 = c.val % 2
    rw [h]
    exact Nat.add_mod_right _ 2
  · show (c.val + 2) % U32 % 2 = c.val % 2
    rw [h]
    exact Nat.add_mod_right _ 2

/-- Every entity minted by the serializer-side state of a render pass has
the parity of the counter seed: the nodes the application built for this
generation.  `ntt ≠ 0 → parity`, and a "reuse" node must carry a (minted)
nonzero target identity. -/
inductive MintedOK {σ : Type} (p : Nat) : Node σ → Prop where
  | mk : ∀ (core : NodeCore σ) (cs : List (Node σ)),
      (core.ntt ≠ 0 → core.ntt % 2 = p) →
      (core.TagName = strBytes "reuse" → core.ntt ≠ 0) →
      (∀ c ∈ cs, MintedOK p c) →
      MintedOK p (.mk core cs)

theorem entsOf_append {σ : Type} (a b : List (prenode σ)) :
    entsOf (a ++ b) = entsOf a ++ entsOf b := by
  simp [entsOf]

theorem setOf_getElem_eq {α : Type} (l : List α) (i : Nat) (q : α)
    (h : l[i]? = some q) : l.set i q = l := by
  apply List.ext_getElem?
  intro j
  by_cases hj : j = i
  · subst hj
    rw [List.getElem?_set_self']
    simp [h]
  · rw [List.getElem?_set_ne (fun hh => hj hh.symm)]

theorem entsOf_setAt {σ : Type} (l : List (prenode σ)) (i : Nat)
    (f : prenode σ → prenode σ) (hf : ∀ q, (f q).ntt = q.ntt) :
    entsOf (setAt l i f) = entsOf l := by
  rw [setAt]
  cases hx : l[i]? with
  | none => rfl
  | some q =>
    show entsOf (l.set i (f q)) = entsOf l
    simp only [entsOf]
    rw [List.map_set]
    rw [hf q]
    apply setOf_getElem_eq
    rw [List.getElem?_map, hx]
    rfl

theorem renameRecs_parity {σ : Type} (p : Nat) (tgt : Entity) (htgt : tgt % 2 = p) :
    ∀ (ps : List (prenode σ)) (c : Counter) (i : Nat), c.val % 2 = p →
      (∀ e ∈ entsOf (renameRecs tgt c i ps).1, e % 2 = p) ∧
      (renameRecs tgt c i ps).2.1.val % 2 = p := by
  intro ps
  induction ps with
  | nil =>
    intro c i hc
    refine ⟨?_, by simpa [renameRecs]⟩
    intro e he
    simp [renameRecs, entsOf] at he
  | cons q ps ih =>
    intro c i hc
    by_cases hi : i = 0
    · subst hi
      have hrec := ih c (0 + 1) hc
      simp only [renameRecs, if_true, ite_true]
      refine ⟨?_, hrec.2⟩
      intro e he
      simp only [entsOf, List.map_cons, List.mem_cons] at he
      rcases he with rfl | he
      · exact htgt
      · exact hrec.1 _ he
    · have hcp := (Inc_parity c).1
      have hnp := (Inc_parity c).2
      have hrec := ih (c.Inc).1 (i + 1) (hcp.trans hc)
      simp only [renameRecs, hi, if_false, ite_false]
      refine ⟨?_, hrec.2⟩
      intro e he
      simp only [entsOf, List.map_cons, List.mem_cons] at he
      rcases he with rfl | he
      · exact hnp.trans hc
      · exact hrec.1 _ he

theorem mintedOK_fields {σ : Type} {p : Nat} {core : NodeCore σ} {cs : List (Node σ)}
    (h : MintedOK p (.mk core cs)) :
    (core.ntt ≠ 0 → core.ntt % 2 = p) ∧
    (core.TagName = strBytes "reuse" → core.ntt ≠ 0) ∧
    (∀ c ∈ cs, MintedOK p c) := by
  cases h with
  | mk _ _ a b c2 => exact ⟨a, b, c2⟩

mutual
theorem serialize_parity {σ : Type} (p : Nat) (n : Node σ) (s s' : SState σ)
    (h : serialize n s = .ok s') (hc : s.ctr.val % 2 = p)
    (hg : ∀ e ∈ entsOf s.tr.g0, e % 2 = p) (hm : MintedOK p n) :
    (∀ e ∈ entsOf s'.tr.g0, e % 2 = p) ∧ s'.ctr.val % 2 = p := by
  match n with
  | .mk core cs =>
  obtain ⟨h1, h2, h3⟩ := mintedOK_fields hm
  by_cases hv : core.nid ∈ s.vis
  · rw [serialize_visited core cs s hv] at h
    exact absurd h (by simp)
  by_cases ht0 : core.TagName = []
  · rw [serialize] at h
    simp [hv, ht0] at h
  by_cases htn : core.TagName = strBytes "nothing"
  · rw [serialize_nothing _ _ _ hv htn] at h
    exact serializeList_parity p cs _ _ h hc hg h3
  by_cases htu : core.TagName = strBytes "reuse"
  · rw [serialize_reuse _ _ _ hv htu] at h
    simp only [Except.ok.injEq] at h
    subst h
    have hntt : core.ntt % 2 = p := h1 (h2 htu)
    have hrn := renameRecs_parity p core.ntt hntt (s.tr.children core.old) s.ctr 0 hc
    refine ⟨?_, hrn.2⟩
    intro e he
    simp only [entsOf] at he hg hrn
    simp only [List.map_append, List.mem_append] at he
    rcases he with he | he
    · exact hg _ he
    · exact hrn.1 _ he
  · set pr := (if core.ntt = 0 ∧ hdlAny core.hdl = true then s.ctr.Inc
               else (s.ctr, core.ntt)) with hpr
    have hp1 : pr.1.val % 2 = p := by
      by_cases hcc : core.ntt = 0 ∧ hdlAny core.hdl = true
      · rw [hpr, if_pos hcc]
        exact (Inc_parity s.ctr).1.trans hc
      · rw [hpr, if_neg hcc]
        exact hc
    by_cases hn0 : pr.2 = 0
    · rw [serialize_elem_zero core cs s pr.1 hv ht0 htn htu (by rw [← hpr, ← hn0])] at h
      cases hsl : serializeList cs
          { vm := elemVM core s.vm, tr := s.tr, ctr := pr.1, vis := s.vis ++ [core.nid] } with
      | error e => rw [hsl] at h; exact absurd h (by simp [Except.bind])
      | ok s2 =>
        rw [hsl] at h
        simp only [Except.bind, Except.ok.injEq] at h
        subst h
        have hrec := serializeList_parity p cs _ s2 hsl hp1 hg h3
        exact ⟨hrec.1, hrec.2⟩
    · by_cases h10 : pr.2 < 10240
      · have hp2 : pr.2 % 2 = p := by
          by_cases hcc : core.ntt = 0 ∧ hdlAny core.hdl = true
          · rw [hpr, if_pos hcc]
            exact (Inc_parity s.ctr).2.trans hc
          · rw [hpr, if_neg hcc] at hn0 ⊢
            exact h1 hn0
        rw [serialize_elem_id core cs s pr.1 pr.2 hv ht0 htn htu (by rw [← hpr]) hn0 h10] at h
        cases hsl : serializeList cs
            { vm := elemVMid core pr.2 s.vm,
              tr := { s.tr with g0 := s.tr.g0 ++
                        [{ ntt := pr.2, scp := 0,
                           hdl := if hdlAny core.hdl then core.hdl else noHandler σ }] },
              ctr := pr.1, vis := s.vis ++ [core.nid] } with
        | error e => rw [hsl] at h; exact absurd h (by simp [Except.bind])
        | ok s2 =>
          rw [hsl] at h
          simp only [Except.bind, Except.ok.injEq] at h
          subst h
          have hg2 : ∀ e ∈ entsOf (s.tr.g0 ++
              [{ ntt := pr.2, scp := 0,
                 hdl := if hdlAny core.hdl then core.hdl else noHandler σ }]), e % 2 = p := by
            intro e he
            rw [entsOf_append] at he
            rcases List.mem_append.mp he with he | he
            · exact hg _ he
            · simp only [entsOf, List.map_cons, List.map_nil, List.mem_singleton] at he
              rw [he]
              exact hp2
          have hrec := serializeList_parity p cs _ _ hsl hp1 hg2 h3
          refine ⟨?_, hrec.2⟩
          intro e he
          show e % 2 = p
          apply hrec.1
          show e ∈ entsOf s2.tr.g0
          have : entsOf (s2.tr.closeScope s.tr.g0.length).g0 = entsOf s2.tr.g0 := by
            rw [etree.closeScope]
            exact entsOf_setAt _ _ _ (fun q => rfl)
          rw [← this]
          exact he
      · rw [serialize_elem_overflow core cs s pr.1 pr.2 hv ht0 htn htu
              (by rw [← hpr]) hn0 h10] at h
        exact absurd h (by simp)
termination_by sizeOf n

theorem serializeList_parity {σ : Type} (p : Nat) (cs : List (Node σ)) (s s' : SState σ)
    (h : serializeList cs s = .ok s') (hc : s.ctr.val % 2 = p)
    (hg : ∀ e ∈ entsOf s.tr.g0, e % 2 = p) (hm : ∀ c ∈ cs, MintedOK p c) :
    (∀ e ∈ entsOf s'.tr.g0, e % 2 = p) ∧ s'.ctr.val % 2 = p := by
  match cs with
  | [] =>
    rw [serializeList] at h
    simp only [Except.ok.injEq] at h
    subst h
    exact ⟨hg, hc⟩
  | c :: cs2 =>
    rw [serializeList] at h
    cases hmc : serialize c s with
    | error e => rw [hmc] at h; exact absurd h (by simp [Bind.bind, Except.bind])
    | ok sm =>
      rw [hmc] at h
      simp only [Bind.bind, Except.bind] at h
      have h1 := serialize_parity p c s sm hmc hc hg (hm c (List.mem_cons_self _ _))
      exact serializeList_parity p cs2 sm s' h h1.2 h1.1
        (fun d hd => hm d (List.mem_cons_of_mem _ hd))
termination_by sizeOf cs
end

/-- The engine invariant between render cycles: the counter carries the
current generation's parity, the current entity buffer is empty (it was
swapped out by `ngen`), and every previous-generation entity has the
opposite parity. -/
def EngInv {σ : Type} (ng : EngineModel σ) : Prop :=
  ng.cnt.val % 2 = ng.gen % 2 ∧ ng.et.g0 = [] ∧
  ∀ e ∈ entsOf ng.et.g1, e % 2 ≠ ng.gen % 2

/-- A sequence of completed render cycles (engine.go `turncrank`), each
building its widget tree with entities minted at the then-current
generation's parity. -/
inductive RunOK {σ : Type} : EngineModel σ → EngineModel σ → Prop where
  | refl (ng : EngineModel σ) : RunOK ng ng
  | step (ng1 ng3 : EngineModel σ) (act : Context σ → Except String (Context σ))
      (root : Context σ → Node σ) (prog : Option XAS) (ng2 : EngineModel σ) :
      (∀ ctx, MintedOK (ng1.gen % 2) (root ctx)) →
      turncrank root ng1 act = .ok (prog, ng2) →
      RunOK ng2 ng3 → RunOK ng1 ng3

theorem engInv_init {σ : Type} (s : σ) : EngInv (engineInit s) := by
  refine ⟨rfl, rfl, ?_⟩
  intro e he
  simp [engineInit, entsOf] at he

theorem runOK_inv {σ : Type} {ng ng' : EngineModel σ} (h : RunOK ng ng')
    (hi : EngInv ng) : EngInv ng' := by
  induction h with
  | refl => exact hi
  | step ng1 ng3 act root prog ng2 hmint hturn _ ih =>
    apply ih
    rw [turncrank] at hturn
    cases hact : act (some ng1.g0) with
    | error e => rw [hact] at hturn; exact absurd hturn (by simp [Bind.bind, Except.bind])
    | ok ctxv =>
      rw [hact] at hturn
      simp only [Bind.bind, Except.bind] at hturn
      cases ctxv with
      | none =>
        simp only [Except.ok.injEq, Prod.mk.injEq] at hturn
        rw [← hturn.2]
        exact hi
      | some st =>
        simp only [] at hturn
        cases hser : serialize (root (some st))
            { vm := [], tr := ng1.et, ctr := ng1.cnt, vis := [] } with
        | error e =>
          rw [hser] at hturn
          simp only [] at hturn
          exact absurd hturn (by simp)
        | ok s2 =>
          rw [hser] at hturn
          simp only [Except.ok.injEq, Prod.mk.injEq] at hturn
          obtain ⟨hi1, hi2, hi3⟩ := hi
          have hpar := serialize_parity (ng1.gen % 2) _ _ _ hser hi1
            (by rw [hi2]; intro e he; simp [entsOf] at he) (hmint _)
          rw [← hturn.2]
          refine ⟨?_, rfl, ?_⟩
          · show ((ng1.gen + 1) % 2) % 2 = (ng1.gen + 1) % 2
            exact Nat.mod_mod_of_dvd _ (dvd_refl 2)
          · show ∀ e ∈ entsOf s2.tr.g0, e % 2 ≠ (ng1.gen + 1) % 2
            intro e he
            rw [hpar.1 _ he]
            have : ∀ g : Nat, g % 2 ≠ (g + 1) % 2 := by intro g; omega
            exact this _

/-- C1: over every sequence of completed render cycles from the initial
engine, a further serialization pass (with the trees' entities minted at
the current generation's parity) records, in the current generation buffer,
only identifiers absent from the previous generation's buffer: the two
live generations are disjoint. -/
theorem C1_generations_disjoint {σ : Type} (s0 : σ) (ng : EngineModel σ)
    (hrun : RunOK (engineInit s0) ng) (n : Node σ)
    (hm : MintedOK (ng.gen % 2) n) (out : SState σ)
    (hser : serialize n { vm := [], tr := ng.et, ctr := ng.cnt, vis := [] } = .ok out) :
    ∀ e ∈ entsOf out.tr.g0, e ∉ entsOf out.tr.g1 := by
  obtain ⟨hi1, hi2, hi3⟩ := runOK_inv hrun (engInv_init s0)
  have hpar := serialize_parity (ng.gen % 2) _ _ _ hser hi1
    (by rw [hi2]; intro e he; simp [entsOf] at he) hm
  obtain ⟨E, recs, -, -, hg1, -, -, -, -⟩ := serialize_shift n _ _ hser
  intro e he hmem
  have h1 := hpar.1 _ he
  have h2 := hi3 e (by rw [← hg1]; exact hmem)
  exact h2 h1

/-- A preorder forest with exact spans: each record's span counts the
record itself plus the records of its (contiguous, following) subtree. -/
inductive SpanForest {σ : Type} : List (prenode σ) → Prop where
  | nil : SpanForest []
  | cons (p : prenode σ) (ts rest : List (prenode σ)) :
      SpanForest ts → SpanForest rest → p.scp = ts.length + 1 →
      SpanForest (p :: ts ++ rest)

/-- The tree contains no "reuse" node (the serializer discipline of C4:
records opened by `add` and closed by `closeScope` in the same pass). -/
inductive NoReuse {σ : Type} : Node σ → Prop where
  | mk (core : NodeCore σ) (cs : List (Node σ)) :
      core.TagName ≠ strBytes "reuse" → (∀ c ∈ cs, NoReuse c) →
      NoReuse (.mk core cs)

theorem noReuse_fields {σ : Type} {core : NodeCore σ} {cs : List (Node σ)}
    (h : NoReuse (.mk core cs)) :
    core.TagName ≠ strBytes "reuse" ∧ ∀ c ∈ cs, NoReuse c := by
  cases h with
  | mk _ _ a b => exact ⟨a, b⟩

theorem spanForest_append {σ : Type} {a b : List (prenode σ)}
    (ha : SpanForest a) (hb : SpanForest b) : SpanForest (a ++ b) := by
  induction ha with
  | nil => exact hb
  | cons p ts rest hts hrest hscp ihts ihrest =>
    have hc := SpanForest.cons p ts (rest ++ b) hts ihrest hscp
    simpa using hc

theorem spanForest_slice {σ : Type} {l : List (prenode σ)} (h : SpanForest l) :
    ∀ (i : Nat) (hi : i < l.length),
      1 ≤ (l.get ⟨i, hi⟩).scp ∧ i + (l.get ⟨i, hi⟩).scp ≤ l.length ∧
      ∃ ts, SpanForest ts ∧
        (l.drop i).take (l.get ⟨i, hi⟩).scp = l.get ⟨i, hi⟩ :: ts ∧
        (l.get ⟨i, hi⟩).scp = ts.length + 1 := by
  induction h with
  | nil => intro i hi; simp at hi
  | cons p ts rest hts hrest hscp ihts ihrest =>
    intro i hi
    match i with
    | 0 =>
      have hg : (p :: ts ++ rest).get ⟨0, hi⟩ = p := rfl
      rw [hg, hscp]
      refine ⟨by omega, by simp only [List.length_cons, List.length_append]; omega,
              ts, hts, ?_, by rfl⟩
      rw [List.drop_zero]
      have hlp : ts.length + 1 = (p :: ts).length := by simp
      rw [hlp, List.take_left]
    | j + 1 =>
      have hj : j < ts.length + rest.length := by
        simp only [List.length_cons, List.length_append] at hi
        omega
      have hj2 : j < (ts ++ rest).length := by simp; omega
      have hg : (p :: ts ++ rest).get ⟨j + 1, hi⟩ = (ts ++ rest).get ⟨j, hj2⟩ := rfl
      rw [hg]
      have hdrop : (p :: ts ++ rest).drop (j + 1) = (ts ++ rest).drop j := rfl
      rw [hdrop]
      by_cases hjt : j < ts.length
      · have hgl : (ts ++ rest).get ⟨j, hj2⟩ = ts.get ⟨j, hjt⟩ := by
          show (ts ++ rest)[j] = ts[j]
          exact List.getElem_append_left hjt
        rw [hgl]
        obtain ⟨hb1, hb2, ts2, hts2, hsl, hlen⟩ := ihts j hjt
        refine ⟨hb1, by simp only [List.length_cons, List.length_append]; omega,
                ts2, hts2, ?_, hlen⟩
        rw [List.drop_append_of_le_length (Nat.le_of_lt hjt),
            List.take_append_of_le_length (by rw [List.length_drop]; omega)]
        exact hsl
      · have hjr : j - ts.length < rest.length := by omega
        have hgl : (ts ++ rest).get ⟨j, hj2⟩ = rest.get ⟨j - ts.length, hjr⟩ := by
          show (ts ++ rest)[j] = rest[j - ts.length]
          exact List.getElem_append_right (by omega)
        rw [hgl]
        obtain ⟨hb1, hb2, ts2, hts2, hsl, hlen⟩ := ihrest (j - ts.length) hjr
        refine ⟨hb1, by simp only [List.length_cons, List.length_append]; omega,
                ts2, hts2, ?_, hlen⟩
        have hde : List.drop j (ts ++ rest) = List.drop (j - ts.length) rest := by
          conv_lhs => rw [show j = ts.length + (j - ts.length) by omega]
          exact List.drop_append _
        rw [hde]
        exact hsl

mutual
theorem serialize_spans {σ : Type} (n : Node σ) (s s' : SState σ)
    (h : serialize n s = .ok s') (hnr : NoReuse n) :
    ∃ recs, s'.tr.g0 = s.tr.g0 ++ recs ∧ SpanForest recs := by
  match n with
  | .mk core cs =>
  obtain ⟨htu, hcs⟩ := noReuse_fields hnr
  by_cases hv : core.nid ∈ s.vis
  · rw [serialize_visited core cs s hv] at h
    exact absurd h (by simp)
  by_cases ht0 : core.TagName = []
  · rw [serialize] at h
    simp [hv, ht0] at h
  by_cases htn : core.TagName = strBytes "nothing"
  · rw [serialize_nothing _ _ _ hv htn] at h
    exact serializeList_spans cs { s with vis := s.vis ++ [core.nid] } _ h hcs
  · set pr := (if core.ntt = 0 ∧ hdlAny core.hdl = true then s.ctr.Inc
               else (s.ctr, core.ntt)) with hpr
    by_cases hn0 : pr.2 = 0
    · rw [serialize_elem_zero core cs s pr.1 hv ht0 htn htu (by rw [← hpr, ← hn0])] at h
      cases hsl : serializeList cs
          { vm := elemVM core s.vm, tr := s.tr, ctr := pr.1, vis := s.vis ++ [core.nid] } with
      | error e => rw [hsl] at h; exact absurd h (by simp [Except.bind])
      | ok s2 =>
        rw [hsl] at h
        simp only [Except.bind, Except.ok.injEq] at h
        subst h
        exact serializeList_spans cs
          { vm := elemVM core s.vm, tr := s.tr, ctr := pr.1, vis := s.vis ++ [core.nid] }
          s2 hsl hcs
    · by_cases h10 : pr.2 < 10240
      · rw [serialize_elem_id core cs s pr.1 pr.2 hv ht0 htn htu (by rw [← hpr]) hn0 h10] at h
        cases hsl : serializeList cs
            { vm := elemVMid core pr.2 s.vm,
              tr := { s.tr with g0 := s.tr.g0 ++
                        [{ ntt := pr.2, scp := 0,
                           hdl := if hdlAny core.hdl then core.hdl else noHandler σ }] },
              ctr := pr.1, vis := s.vis ++ [core.nid] } with
        | error e => rw [hsl] at h; exact absurd h (by simp [Except.bind])
        | ok s2 =>
          rw [hsl] at h
          simp only [Except.bind, Except.ok.injEq] at h
          subst h
          obtain ⟨recs, hg0, hforest⟩ := serializeList_spans cs
            { vm := elemVMid core pr.2 s.vm,
              tr := { s.tr with g0 := s.tr.g0 ++
                        [{ ntt := pr.2, scp := 0,
                           hdl := if hdlAny core.hdl then core.hdl else noHandler σ }] },
              ctr := pr.1, vis := s.vis ++ [core.nid] } s2 hsl hcs
          simp only at hg0
          have hg0' : s2.tr.g0 = s.tr.g0 ++
              ({ ntt := pr.2, scp := 0,
                 hdl := if hdlAny core.hdl then core.hdl else noHandler σ } :: recs) := by
            rw [hg0]; simp
          have hlen : s2.tr.g0.length = s.tr.g0.length + 1 + recs.length := by
            rw [hg0']
            simp only [List.length_append, List.length_cons]
            omega
          refine ⟨{ ntt := pr.2, scp := s2.tr.g0.length - s.tr.g0.length,
                    hdl := if hdlAny core.hdl then core.hdl else noHandler σ } :: recs, ?_, ?_⟩
          · show (s2.tr.closeScope s.tr.g0.length).g0 = _
            rw [etree.closeScope, hg0', setAt_append]
          · have hscp2 : s2.tr.g0.length - s.tr.g0.length = recs.length + 1 := by omega
            have hf := SpanForest.cons
                { ntt := pr.2, scp := s2.tr.g0.length - s.tr.g0.length,
                  hdl := if hdlAny core.hdl then core.hdl else noHandler σ }
                recs [] hforest SpanForest.nil hscp2
            simpa using hf
      · rw [serialize_elem_overflow core cs s pr.1 pr.2 hv ht0 htn htu
              (by rw [← hpr]) hn0 h10] at h
        exact absurd h (by simp)
termination_by sizeOf n

theorem serializeList_spans {σ : Type} (cs : List (Node σ)) (s s' : SState σ)
    (h : serializeList cs s = .ok s') (hnr : ∀ c ∈ cs, NoReuse c) :
    ∃ recs, s'.tr.g0 = s.tr.g0 ++ recs ∧ SpanForest recs := by
  match cs with
  | [] =>
    rw [serializeList] at h
    simp only [Except.ok.injEq] at h
    subst h
    exact ⟨[], by simp, SpanForest.nil⟩
  | c :: cs2 =>
    rw [serializeList] at h
    cases hmc : serialize c s with
    | error e => rw [hmc] at h; exact absurd h (by simp [Bind.bind, Except.bind])
    | ok sm =>
      rw [hmc] at h
      simp only [Bind.bind, Except.bind] at h
      obtain ⟨r1, hg1, hf1⟩ := serialize_spans c s sm hmc (hnr c (List.mem_cons_self _ _))
      obtain ⟨r2, hg2, hf2⟩ := serializeList_spans cs2 sm s' h
        (fun d hd => hnr d (List.mem_cons_of_mem _ hd))
      exact ⟨r1 ++ r2, by rw [hg2, hg1, List.append_assoc], spanForest_append hf1 hf2⟩
termination_by sizeOf cs
end

/-- C4: `closeScope(index)` sets the span of the record at `index` to
`currentLength - index`; and under the serializer's discipline (a pass over
a tree without "reuse" nodes, from an empty current buffer, each
entity-bearing node's record opened by `add` before its children and closed
by `closeScope` after, once each), the resulting buffer is a preorder span
forest: every closed record at index `i` with span `s` delimits records
`i..i+s-1`, exactly the preorder-contiguous subtree rooted at `i`. -/
theorem C4_closeScope_spans :
    (∀ (σ : Type) (t : etree σ) (of : Nat) (h : of < t.g0.length),
      (t.closeScope of).g0 =
        t.g0.set of { t.g0.get ⟨of, h⟩ with scp := t.g0.length - of } ∧
      (t.closeScope of).g1 = t.g1) ∧
    (∀ (σ : Type) (n : Node σ) (s s' : SState σ),
      serialize n s = .ok s' → NoReuse n → s.tr.g0 = [] →
      SpanForest s'.tr.g0 ∧
      ∀ (i : Nat) (hi : i < s'.tr.g0.length),
        1 ≤ (s'.tr.g0.get ⟨i, hi⟩).scp ∧
        i + (s'.tr.g0.get ⟨i, hi⟩).scp ≤ s'.tr.g0.length ∧
        ∃ ts, SpanForest ts ∧
          (s'.tr.g0.drop i).take (s'.tr.g0.get ⟨i, hi⟩).scp =
            s'.tr.g0.get ⟨i, hi⟩ :: ts ∧
          (s'.tr.g0.get ⟨i, hi⟩).scp = ts.length + 1) := by
  constructor
  · intro σ t of h
    refine ⟨?_, rfl⟩
    rw [etree.closeScope, setAt]
    have hx : t.g0[of]? = some (t.g0.get ⟨of, h⟩) := by
      rw [List.getElem?_eq_getElem h]
      rfl
    rw [hx]
  · intro σ n s s' hok hnr hempty
    obtain ⟨recs, hg0, hforest⟩ := serialize_spans n s s' hok hnr
    rw [hempty] at hg0
    simp only [List.nil_append] at hg0
    rw [hg0]
    exact ⟨hforest, spanForest_slice hforest⟩

/-- The operand-block bytes of one instruction: each string as a 16-bit
big-endian length prefix plus its raw bytes (render.go `AddInstr`). -/
def encOps (ss : List GoString) : List Nat :=
  ss.foldl (fun a s => a ++ enc16 s.length ++ s) []

theorem AddInstr_encOps (vm : XAS) (c : Nat) (ss : List GoString) :
    XAS.AddInstr vm c ss = vm ++ c :: encOps ss := by
  simp only [XAS.AddInstr, encOps, List.append_assoc]
  rw [foldl_emit (fun s => enc16 s.length ++ s) ss (vm ++ [c]),
      foldl_emit (fun s => enc16 s.length ++ s) ss []]
  simp

/-- A term-free well-formed encoding: a concatenation of instructions, each
a non-terminate opcode with exactly its declared operand count, every
operand string shorter than `2^16` bytes. -/
inductive EncBody : List Nat → Prop where
  | nil : EncBody []
  | instr (op : Nat) (ss : List GoString) (rest : List Nat) :
      op ≠ 0 → operandCount op = some ss.length →
      (∀ s2 ∈ ss, s2.length < 65536) → EncBody rest →
      EncBody (op :: encOps ss ++ rest)

theorem encBody_append {a b : List Nat} (ha : EncBody a) (hb : EncBody b) :
    EncBody (a ++ b) := by
  induction ha with
  | nil => exact hb
  | instr op ss rest h0 hc hs _ ih =>
    have hx := EncBody.instr op ss (rest ++ b) h0 hc hs ih
    simpa using hx

theorem encBody_single (c : Nat) (ss : List GoString) (h0 : c ≠ 0)
    (hc : operandCount c = some ss.length) (hs : ∀ s2 ∈ ss, s2.length < 65536) :
    EncBody (XAS.AddInstr [] c ss) := by
  rw [AddInstr_encOps]
  have hx := EncBody.instr c ss [] h0 hc hs EncBody.nil
  simpa using hx

/-- Digit-count bound for the fuel-structured digit expansion. -/
theorem decRevAux_len : ∀ (f n k : Nat), n < 10 ^ k → (decRevAux f n).length ≤ k := by
  intro f
  induction f with
  | zero => intro n k _; simp [decRevAux]
  | succ f ih =>
    intro n k hk
    match n with
    | 0 => simp [decRevAux]
    | n + 1 =>
      have hk1 : 1 ≤ k := by
        rcases Nat.eq_zero_or_pos k with rfl | hp
        · simp at hk
        · exact hp
      obtain ⟨k2, rfl⟩ : ∃ k2, k = k2 + 1 := ⟨k - 1, by omega⟩
      rw [decRevAux]
      simp only [List.length_cons]
      have hdiv : (n + 1) / 10 < 10 ^ k2 := by
        rw [Nat.div_lt_iff_lt_mul (by omega)]
        calc n + 1 < 10 ^ (k2 + 1) := hk
        _ = 10 ^ k2 * 10 := by ring
      have := ih ((n + 1) / 10) k2 hdiv
      omega

theorem decBytes_len (e : Entity) (he : e < U32) : (decBytes e).length < 65536 := by
  rw [decBytes]
  by_cases h0 : e = 0
  · simp [h0]
  · simp only [h0, if_false, ite_false, List.length_reverse]
    have h10 : e < 10 ^ 10 := by
      have h2 : (10 : Nat) ^ 10 = 10000000000 := by norm_num
      rw [h2]
      calc e < U32 := he
        _ ≤ 10000000000 := by norm_num [U32]
    have := decRevAux_len e e 10 h10
    rw [decRev]
    omega

/-- Well-bounded node strings: every string operand the serializer will
emit for this tree is shorter than `2^16` bytes, and entity fields are
`uint32` values (as in the Go source types). -/
inductive StrOK {σ : Type} : Node σ → Prop where
  | mk (core : NodeCore σ) (cs : List (Node σ)) :
      core.TagName.length < 65536 → core.Classes.length < 65536 →
      core.Text.length < 65536 →
      (∀ a ∈ core.Attrs, a.Name.length < 65536 ∧ a.Value.length < 65536) →
      core.ntt < U32 → core.old < U32 →
      (∀ c ∈ cs, StrOK c) → StrOK (.mk core cs)

theorem strOK_fields {σ : Type} {core : NodeCore σ} {cs : List (Node σ)}
    (h : StrOK (.mk core cs)) :
    core.TagName.length < 65536 ∧ core.Classes.length < 65536 ∧
    core.Text.length < 65536 ∧
    (∀ a ∈ core.Attrs, a.Name.length < 65536 ∧ a.Value.length < 65536) ∧
    core.ntt < U32 ∧ core.old < U32 ∧ (∀ c ∈ cs, StrOK c) := by
  cases h with
  | mk _ _ a b c d e f g => exact ⟨a, b, c, d, e, f, g⟩

theorem attrsFold_emit (ats : List Attr) (x : XAS) :
    attrsFold ats x = x ++ attrsFold ats [] := by
  simp only [attrsFold]
  exact foldl_instr_emit OpSetAttr (fun at2 => [at2.Name, at2.Value]) ats x

theorem encBody_attrsFold (ats : List Attr)
    (h : ∀ a ∈ ats, a.Name.length < 65536 ∧ a.Value.length < 65536) :
    EncBody (attrsFold ats []) := by
  induction ats with
  | nil => exact EncBody.nil
  | cons a ats ih =>
    have hstep : attrsFold (a :: ats) [] =
        XAS.AddInstr [] OpSetAttr [a.Name, a.Value] ++ attrsFold ats [] := by
      show attrsFold ats (XAS.AddInstr [] OpSetAttr [a.Name, a.Value]) = _
      exact attrsFold_emit ats _
    rw [hstep]
    apply encBody_append
    · apply encBody_single
      · decide
      · rfl
      · intro s2 hs2
        simp only [List.mem_cons, List.not_mem_nil, or_false, List.mem_singleton] at hs2
        rcases hs2 with rfl | rfl
        · exact (h a (by simp)).1
        · exact (h a (by simp)).2
    · exact ih (fun b hb => h b (List.mem_cons_of_mem _ hb))

theorem elemVM_decomp {σ : Type} (core : NodeCore σ) :
    elemVM core [] =
      XAS.AddInstr [] OpCreateElement [core.TagName] ++
      ((if core.Classes ≠ [] then XAS.AddInstr [] OpSetClass [core.Classes] else []) ++
       (attrsFold core.Attrs [] ++
        (if core.Text ≠ [] then XAS.AddInstr [] OpAddText [core.Text] else []))) := by
  simp only [elemVM]
  by_cases hc : core.Classes = [] <;> by_cases ht : core.Text = [] <;>
    simp only [hc, ht, ne_eq, not_true_eq_false, not_false_eq_true, if_true,
               if_false, ite_true, ite_false] <;>
    (try rw [AddInstr_eq (attrsFold _ _) OpAddText]) <;>
    rw [attrsFold_emit] <;>
    (try rw [AddInstr_eq (XAS.AddInstr [] OpCreateElement [core.TagName]) OpSetClass]) <;>
    simp [List.append_assoc]

theorem elemVMid_decomp {σ : Type} (core : NodeCore σ) (ntt : Entity) :
    elemVMid core ntt [] =
      XAS.AddInstr [] OpCreateElement [core.TagName] ++
      ((if core.Classes ≠ [] then XAS.AddInstr [] OpSetClass [core.Classes] else []) ++
       (XAS.AddInstr [] OpSetID [decBytes ntt] ++
        (attrsFold core.Attrs [] ++
         (if core.Text ≠ [] then XAS.AddInstr [] OpAddText [core.Text] else [])))) := by
  simp only [elemVMid]
  by_cases hc : core.Classes = [] <;> by_cases ht : core.Text = [] <;>
    simp only [hc, ht, ne_eq, not_true_eq_false, not_false_eq_true, if_true,
               if_false, ite_true, ite_false] <;>
    (try rw [AddInstr_eq (attrsFold _ _) OpAddText]) <;>
    rw [attrsFold_emit] <;>
    rw [AddInstr_eq _ OpSetID] <;>
    (try rw [AddInstr_eq (XAS.AddInstr [] OpCreateElement [core.TagName]) OpSetClass]) <;>
    simp [List.append_assoc]

theorem encBody_elemVM {σ : Type} (core : NodeCore σ)
    (htag : core.TagName.length < 65536) (htag0 : ¬ core.TagName = [])
    (hcls : core.Classes.length < 65536) (htxt : core.Text.length < 65536)
    (hats : ∀ a ∈ core.Attrs, a.Name.length < 65536 ∧ a.Value.length < 65536) :
    EncBody (elemVM core []) := by
  rw [elemVM_decomp]
  apply encBody_append
  · apply encBody_single 1 [core.TagName] (by decide) rfl
    intro s2 hs2
    simp only [List.mem_singleton] at hs2
    subst hs2
    exact htag
  apply encBody_append
  · by_cases hc : core.Classes = []
    · simp only [hc, ne_eq, not_true_eq_false, ite_false, if_false]
      exact EncBody.nil
    · simp only [hc, ne_eq, not_false_eq_true, ite_true, if_true]
      apply encBody_single 2 [core.Classes] (by decide) rfl
      intro s2 hs2
      simp only [List.mem_singleton] at hs2
      subst hs2
      exact hcls
  apply encBody_append
  · exact encBody_attrsFold core.Attrs hats
  · by_cases ht : core.Text = []
    · simp only [ht, ne_eq, not_true_eq_false, ite_false, if_false]
      exact EncBody.nil
    · simp only [ht, ne_eq, not_false_eq_true, ite_true, if_true]
      apply encBody_single 5 [core.Text] (by decide) rfl
      intro s2 hs2
      simp only [List.mem_singleton] at hs2
      subst hs2
      exact htxt

theorem encBody_elemVMid {σ : Type} (core : NodeCore σ) (ntt : Entity)
    (htag : core.TagName.length < 65536) (htag0 : ¬ core.TagName = [])
    (hcls : core.Classes.length < 65536) (htxt : core.Text.length < 65536)
    (hats : ∀ a ∈ core.Attrs, a.Name.length < 65536 ∧ a.Value.length < 65536)
    (hntt : ntt < U32) :
    EncBody (elemVMid core ntt []) := by
  rw [elemVMid_decomp]
  apply encBody_append
  · apply encBody_single 1 [core.TagName] (by decide) rfl
    intro s2 hs2
    simp only [List.mem_singleton] at hs2
    subst hs2
    exact htag
  apply encBody_append
  · by_cases hc : core.Classes = []
    · simp only [hc, ne_eq, not_true_eq_false, ite_false, if_false]
      exact EncBody.nil
    · simp only [hc, ne_eq, not_false_eq_true, ite_true, if_true]
      apply encBody_single 2 [core.Classes] (by decide) rfl
      intro s2 hs2
      simp only [List.mem_singleton] at hs2
      subst hs2
      exact hcls
  apply encBody_append
  · apply encBody_single 3 [decBytes ntt] (by decide) rfl
    intro s2 hs2
    simp only [List.mem_singleton] at hs2
    subst hs2
    exact decBytes_len ntt hntt
  apply encBody_append
  · exact encBody_attrsFold core.Attrs hats
  · by_cases ht : core.Text = []
    · simp only [ht, ne_eq, not_true_eq_false, ite_false, if_false]
      exact EncBody.nil
    · simp only [ht, ne_eq, not_false_eq_true, ite_true, if_true]
      apply encBody_single 5 [core.Text] (by decide) rfl
      intro s2 hs2
      simp only [List.mem_singleton] at hs2
      subst hs2
      exact htxt

theorem encBody_reidFold (prs : List (Entity × Entity))
    (h : ∀ pr ∈ prs, pr.1 < U32 ∧ pr.2 < U32) :
    EncBody (prs.foldl
      (fun a pr => XAS.AddInstr a OpReID [decBytes pr.1, decBytes pr.2]) []) := by
  induction prs with
  | nil => exact EncBody.nil
  | cons pr prs ih =>
    simp only [List.foldl_cons]
    rw [foldl_instr_emit (α := Entity × Entity) OpReID
          (fun q => [decBytes q.1, decBytes q.2]) prs
          (XAS.AddInstr [] OpReID [decBytes pr.1, decBytes pr.2])]
    apply encBody_append
    · apply encBody_single 7 [decBytes pr.1, decBytes pr.2] (by decide) rfl
      intro s2 hs2
      simp only [List.mem_cons, List.not_mem_nil, or_false, List.mem_singleton] at hs2
      rcases hs2 with rfl | rfl
      · exact decBytes_len _ (h pr (by simp)).1
      · exact decBytes_len _ (h pr (by simp)).2
    · exact ih (fun q hq => h q (List.mem_cons_of_mem _ hq))

theorem children_mem {σ : Type} (t : etree σ) (nt : Entity)
    (p : prenode σ) (hp : p ∈ t.children nt) : p ∈ t.g1 := by
  rw [etree.children] at hp
  by_cases hi : t.locate nt = -1
  · simp [hi] at hp
  · simp only [hi, if_false, ite_false] at hp
    exact List.mem_of_mem_drop (List.mem_of_mem_take hp)

theorem renameRecs_cons_zero {σ : Type} (tgt : Entity) (c : Counter)
    (q : prenode σ) (ps : List (prenode σ)) :
    renameRecs tgt c 0 (q :: ps) =
      ({ q with ntt := tgt } :: (renameRecs tgt c 1 ps).1,
       (renameRecs tgt c 1 ps).2.1,
       (if tgt ≠ q.ntt then [(q.ntt, tgt)] else []) ++ (renameRecs tgt c 1 ps).2.2) := rfl

theorem renameRecs_cons_succ {σ : Type} (tgt : Entity) (c : Counter) (i : Nat)
    (q : prenode σ) (ps : List (prenode σ)) :
    renameRecs tgt c (i + 1) (q :: ps) =
      ({ q with ntt := (c.Inc).2 } :: (renameRecs tgt (c.Inc).1 (i + 2) ps).1,
       (renameRecs tgt (c.Inc).1 (i + 2) ps).2.1,
       (if (c.Inc).2 ≠ q.ntt then [(q.ntt, (c.Inc).2)] else []) ++
         (renameRecs tgt (c.Inc).1 (i + 2) ps).2.2) := rfl

theorem renameRecs_bounds {σ : Type} (tgt : Entity) (htgt : tgt < U32) :
    ∀ (ps : List (prenode σ)) (c : Counter) (i : Nat),
      (∀ p ∈ ps, p.ntt < U32) →
      ∀ pr ∈ (renameRecs tgt c i ps).2.2, pr.1 < U32 ∧ pr.2 < U32 := by
  intro ps
  induction ps with
  | nil => intro c i _ pr hpr; simp [renameRecs] at hpr
  | cons q ps ih =>
    intro c i hps pr hpr
    have hq : q.ntt < U32 := hps q (by simp)
    have hps2 : ∀ p ∈ ps, p.ntt < U32 := fun p hp => hps p (List.mem_cons_of_mem _ hp)
    by_cases hi : i = 0
    · subst hi
      rw [renameRecs_cons_zero] at hpr
      rcases List.mem_append.mp hpr with hpr | hpr
      · by_cases hne : tgt ≠ q.ntt
        · rw [if_pos hne] at hpr
          simp only [List.mem_singleton] at hpr
          subst hpr
          exact ⟨hq, htgt⟩
        · rw [if_neg hne] at hpr
          exact absurd hpr (List.not_mem_nil pr)
      · exact ih c 1 hps2 pr hpr
    · obtain ⟨j, rfl⟩ : ∃ j, i = j + 1 := ⟨i - 1, by omega⟩
      rw [renameRecs_cons_succ] at hpr
      have hmint : (c.Inc).2 < U32 := Nat.mod_lt _ (by rw [U32]; omega)
      rcases List.mem_append.mp hpr with hpr | hpr
      · by_cases hne : (c.Inc).2 ≠ q.ntt
        · rw [if_pos hne] at hpr
          simp only [List.mem_singleton] at hpr
          subst hpr
          exact ⟨hq, hmint⟩
        · rw [if_neg hne] at hpr
          exact absurd hpr (List.not_mem_nil pr)
      · exact ih (c.Inc).1 (j + 2) hps2 pr hpr

mutual
theorem serialize_enc {σ : Type} (n : Node σ) (s s' : SState σ)
    (h : serialize n s = .ok s') (hso : StrOK n)
    (hg1 : ∀ p ∈ s.tr.g1, p.ntt < U32) :
    ∃ E, s'.vm = s.vm ++ E ∧ EncBody E := by
  match n with
  | .mk core cs =>
  obtain ⟨htag, hcls, htxt, hats, hntt, hold, hcs⟩ := strOK_fields hso
  by_cases hv : core.nid ∈ s.vis
  · rw [serialize_visited core cs s hv] at h
    exact absurd h (by simp)
  by_cases ht0 : core.TagName = []
  · rw [serialize] at h
    simp [hv, ht0] at h
  by_cases htn : core.TagName = strBytes "nothing"
  · rw [serialize_nothing _ _ _ hv htn] at h
    exact serializeList_enc cs { s with vis := s.vis ++ [core.nid] } _ h hcs hg1
  by_cases htu : core.TagName = strBytes "reuse"
  · rw [serialize_reuse _ _ _ hv htu] at h
    simp only [Except.ok.injEq] at h
    subst h
    refine ⟨XAS.AddInstr [] OpReuse [decBytes core.old] ++
        (renameRecs core.ntt s.ctr 0 (s.tr.children core.old)).2.2.foldl
          (fun a pr => XAS.AddInstr a OpReID [decBytes pr.1, decBytes pr.2]) [], ?_, ?_⟩
    · show (renameRecs core.ntt s.ctr 0 (s.tr.children core.old)).2.2.foldl
          (fun a pr => XAS.AddInstr a OpReID [decBytes pr.1, decBytes pr.2])
          (XAS.AddInstr s.vm OpReuse [decBytes core.old]) = _
      rw [foldl_instr_emit (α := Entity × Entity) OpReID
            (fun q => [decBytes q.1, decBytes q.2]) _
            (XAS.AddInstr s.vm OpReuse [decBytes core.old]),
          AddInstr_eq s.vm, List.append_assoc]
    · apply encBody_append
      · apply encBody_single 6 [decBytes core.old] (by decide) rfl
        intro s2 hs2
        simp only [List.mem_singleton] at hs2
        subst hs2
        exact decBytes_len _ hold
      · apply encBody_reidFold
        apply renameRecs_bounds core.ntt hntt
        intro p hp
        exact hg1 p (children_mem s.tr core.old p hp)
  · set pr := (if core.ntt = 0 ∧ hdlAny core.hdl = true then s.ctr.Inc
               else (s.ctr, core.ntt)) with hpr
    have hprb : pr.2 = 0 ∨ pr.2 < U32 := by
      by_cases hcc : core.ntt = 0 ∧ hdlAny core.hdl = true
      · rw [hpr, if_pos hcc]
        exact Or.inr (Nat.mod_lt _ (by rw [U32]; omega))
      · rw [hpr, if_neg hcc]
        exact Or.inr hntt
    by_cases hn0 : pr.2 = 0
    · rw [serialize_elem_zero core cs s pr.1 hv ht0 htn htu (by rw [← hpr, ← hn0])] at h
      cases hsl : serializeList cs
          { vm := elemVM core s.vm, tr := s.tr, ctr := pr.1, vis := s.vis ++ [core.nid] } with
      | error e => rw [hsl] at h; exact absurd h (by simp [Except.bind])
      | ok s2 =>
        rw [hsl] at h
        simp only [Except.bind, Except.ok.injEq] at h
        subst h
        obtain ⟨Ec, hvm, henc⟩ := serializeList_enc cs
          { vm := elemVM core s.vm, tr := s.tr, ctr := pr.1, vis := s.vis ++ [core.nid] }
          s2 hsl hcs hg1
        simp only at hvm
        refine ⟨elemVM core [] ++ Ec ++ XAS.AddInstr [] OpNext [], ?_, ?_⟩
        · show XAS.AddInstr s2.vm OpNext [] = _
          rw [AddInstr_eq s2.vm, hvm, elemVM_emit]
          simp
        · apply encBody_append
          apply encBody_append
          · exact encBody_elemVM core htag ht0 hcls htxt hats
          · exact henc
          · apply encBody_single 8 [] (by decide) rfl
            intro s2 hs2
            simp at hs2
    · by_cases h10 : pr.2 < 10240
      · rw [serialize_elem_id core cs s pr.1 pr.2 hv ht0 htn htu (by rw [← hpr]) hn0 h10] at h
        cases hsl : serializeList cs
            { vm := elemVMid core pr.2 s.vm,
              tr := { s.tr with g0 := s.tr.g0 ++
                        [{ ntt := pr.2, scp := 0,
                           hdl := if hdlAny core.hdl then core.hdl else noHandler σ }] },
              ctr := pr.1, vis := s.vis ++ [core.nid] } with
        | error e => rw [hsl] at h; exact absurd h (by simp [Except.bind])
        | ok s2 =>
          rw [hsl] at h
          simp only [Except.bind, Except.ok.injEq] at h
          subst h
          obtain ⟨Ec, hvm, henc⟩ := serializeList_enc cs
            { vm := elemVMid core pr.2 s.vm,
              tr := { s.tr with g0 := s.tr.g0 ++
                        [{ ntt := pr.2, scp := 0,
                           hdl := if hdlAny core.hdl then core.hdl else noHandler σ }] },
              ctr := pr.1, vis := s.vis ++ [core.nid] } s2 hsl hcs hg1
          simp only at hvm
          refine ⟨elemVMid core pr.2 [] ++ Ec ++ XAS.AddInstr [] OpNext [], ?_, ?_⟩
          · show XAS.AddInstr s2.vm OpNext [] = _
            rw [AddInstr_eq s2.vm, hvm, elemVMid_emit]
            simp
          · apply encBody_append
            apply encBody_append
            · exact encBody_elemVMid core pr.2 htag ht0 hcls htxt hats
                (by rcases hprb with hz | hb
                    · exact absurd hz hn0
                    · exact hb)
            · exact henc
            · apply encBody_single 8 [] (by decide) rfl
              intro s2 hs2
              simp at hs2
      · rw [serialize_elem_overflow core cs s pr.1 pr.2 hv ht0 htn htu
              (by rw [← hpr]) hn0 h10] at h
        exact absurd h (by simp)
termination_by sizeOf n

theorem serializeList_enc {σ : Type} (cs : List (Node σ)) (s s' : SState σ)
    (h : serializeList cs s = .ok s') (hso : ∀ c ∈ cs, StrOK c)
    (hg1 : ∀ p ∈ s.tr.g1, p.ntt < U32) :
    ∃ E, s'.vm = s.vm ++ E ∧ EncBody E := by
  match cs with
  | [] =>
    rw [serializeList] at h
    simp only [Except.ok.injEq] at h
    subst h
    exact ⟨[], by simp, EncBody.nil⟩
  | c :: cs2 =>
    rw [serializeList] at h
    cases hmc : serialize c s with
    | error e => rw [hmc] at h; exact absurd h (by simp [Bind.bind, Except.bind])
    | ok sm =>
      rw [hmc] at h
      simp only [Bind.bind, Except.bind] at h
      obtain ⟨E1, hvm1, henc1⟩ := serialize_enc c s sm hmc (hso c (List.mem_cons_self _ _)) hg1
      obtain ⟨-, -, -, -, hg11, -, -, -, -⟩ := serialize_shift c s sm hmc
      obtain ⟨E2, hvm2, henc2⟩ := serializeList_enc cs2 sm s' h
        (fun d hd => hso d (List.mem_cons_of_mem _ hd))
        (by rw [hg11]; exact hg1)
      exact ⟨E1 ++ E2, by rw [hvm2, hvm1, List.append_assoc], encBody_append henc1 henc2⟩
termination_by sizeOf cs
end

theorem readStr_enc (s2 : GoString) (R : List Nat) (h : s2.length < 65536) :
    readStr (enc16 s2.length ++ (s2 ++ R)) = some (s2, R) := by
  show readStr (s2.length % 65536 / 256 :: s2.length % 256 :: (s2 ++ R)) = some (s2, R)
  rw [readStr]
  have hlen : s2.length % 65536 / 256 * 256 + s2.length % 256 = s2.length := by
    rw [Nat.mod_eq_of_lt h]
    omega
  rw [hlen]
  have hle : s2.length ≤ (s2 ++ R).length := by simp
  rw [if_pos hle]
  rw [List.take_left, List.drop_left]

theorem encOps_cons (s2 : GoString) (ss : List GoString) :
    encOps (s2 :: ss) = (enc16 s2.length ++ s2) ++ encOps ss := by
  simp only [encOps, List.foldl_cons, List.nil_append, List.append_assoc]
  rw [foldl_emit (fun s => enc16 s.length ++ s) ss (enc16 s2.length ++ s2),
      foldl_emit (fun s => enc16 s.length ++ s) ss []]
  simp

theorem readStrs_enc (ss : List GoString) (R : List Nat)
    (h : ∀ s2 ∈ ss, s2.length < 65536) :
    readStrs ss.length (encOps ss ++ R) = some (ss, R) := by
  induction ss generalizing R with
  | nil =>
    show readStrs 0 (encOps [] ++ R) = some ([], R)
    rw [show encOps [] = [] from rfl]
    rfl
  | cons s2 ss ih =>
    show readStrs (ss.length + 1) _ = _
    rw [encOps_cons]
    rw [readStrs]
    have hr : readStr ((enc16 s2.length ++ s2 ++ encOps ss) ++ R) = some (s2, encOps ss ++ R) := by
      have := readStr_enc s2 (encOps ss ++ R) (h s2 (by simp))
      simpa [List.append_assoc] using this
    rw [show (enc16 s2.length ++ s2) ++ encOps ss ++ R =
        (enc16 s2.length ++ s2 ++ encOps ss) ++ R by simp, hr]
    simp only [Option.bind_eq_bind, Option.some_bind]
    rw [ih R (fun q hq => h q (List.mem_cons_of_mem _ hq))]
    rfl

theorem decodeInstrs_enc {E : List Nat} (he : EncBody E) :
    ∀ (fuel : Nat) (tail : List Nat), E.length < fuel →
      ∃ is, decodeInstrs fuel (E ++ 0 :: tail) = some (is ++ [(0, [])], tail) ∧
        ∀ q ∈ is, q.1 ≠ 0 := by
  induction he with
  | nil =>
    intro fuel tail hf
    obtain ⟨f, rfl⟩ : ∃ f, fuel = f + 1 := ⟨fuel - 1, by omega⟩
    refine ⟨[], ?_, by simp⟩
    show decodeInstrs (f + 1) (0 :: tail) = some ([(0, [])], tail)
    rw [decodeInstrs]
    rfl
  | instr op ss rest h0 hc hs hrest ih =>
    intro fuel tail hf
    obtain ⟨f, rfl⟩ : ∃ f, fuel = f + 1 := ⟨fuel - 1, by omega⟩
    have hrl : rest.length < f := by
      simp only [List.length_cons, List.length_append] at hf
      omega
    obtain ⟨is2, hdec2, hne2⟩ := ih f tail hrl
    refine ⟨(op, ss) :: is2, ?_, ?_⟩
    · show decodeInstrs (f + 1) ((op :: encOps ss ++ rest) ++ 0 :: tail) = _
      rw [show (op :: encOps ss ++ rest) ++ 0 :: tail =
          op :: (encOps ss ++ (rest ++ 0 :: tail)) by simp]
      rw [decodeInstrs]
      rw [hc]
      simp only [Option.bind_eq_bind, Option.some_bind]
      rw [readStrs_enc ss (rest ++ 0 :: tail) hs]
      simp only [Option.some_bind]
      rw [if_neg (show ¬ op = OpTerm from h0)]
      rw [hdec2]
      rfl
    · intro q hq
      rcases List.mem_cons.mp hq with rfl | hq
      · exact h0
      · exact hne2 q hq

/-- C6 (amended): every Mutation Program produced by a completed render
cycle whose tree has all string fields shorter than `2^16` bytes (and
`uint32` entity values, as in the Go types) is well-formed on the wire:
its last byte is the terminate opcode, and decoding it — one opcode byte,
then the declared big-endian length-prefixed operand strings per opcode —
consumes exactly the bytes produced, yielding instructions whose only
terminate opcode is the final one. -/
theorem C6_program_decodes {σ : Type} (root : Context σ → Node σ)
    (ng : EngineModel σ) (act : Context σ → Except String (Context σ))
    (prog : XAS) (ng2 : EngineModel σ)
    (hturn : turncrank root ng act = .ok (some prog, ng2))
    (hso : ∀ ctx, StrOK (root ctx))
    (hg1 : ∀ p ∈ ng.et.g1, p.ntt < U32) :
    prog.getLast? = some OpTerm ∧
    ∃ is, decodeProg prog = some (is ++ [(OpTerm, [])], []) ∧
      ∀ q ∈ is, q.1 ≠ OpTerm := by
  rw [turncrank] at hturn
  cases hact : act (some ng.g0) with
  | error e => rw [hact] at hturn; exact absurd hturn (by simp [Bind.bind, Except.bind])
  | ok ctxv =>
    rw [hact] at hturn
    simp only [Bind.bind, Except.bind] at hturn
    cases ctxv with
    | none =>
      simp only [Except.ok.injEq, Prod.mk.injEq] at hturn
      exact absurd hturn.1 (by simp)
    | some st =>
      simp only [] at hturn
      cases hser : serialize (root (some st))
          { vm := [], tr := ng.et, ctr := ng.cnt, vis := [] } with
      | error e =>
        rw [hser] at hturn
        simp only [] at hturn
        exact absurd hturn (by simp)
      | ok s2 =>
        rw [hser] at hturn
        simp only [Except.ok.injEq, Prod.mk.injEq] at hturn
        obtain ⟨E, hvm, henc⟩ := serialize_enc (root (some st))
          { vm := [], tr := ng.et, ctr := ng.cnt, vis := [] } s2 hser (hso _) hg1
        simp only [List.nil_append] at hvm
        have hprog : prog = E ++ 0 :: [] := by
          have h1 : XAS.AddInstr s2.vm OpTerm [] = prog := Option.some.inj hturn.1
          rw [← h1, AddInstr_encOps, hvm]
          rfl
        subst hprog
        constructor
        · exact List.getLast?_concat E
        · have hlen : E.length < (E ++ 0 :: []).length := by simp
          obtain ⟨is, hdec, hne⟩ := decodeInstrs_enc henc ((E ++ 0 :: []).length) [] hlen
          exact ⟨is, hdec, hne⟩

theorem hdlAny_noHandler {σ : Type} : hdlAny (noHandler σ) = false := by
  simp [hdlAny, noHandler]

/-- Evaluation helper: an element leaf with no entity and no handler. -/
theorem serialize_leaf {σ : Type} (core : NodeCore σ) (s : SState σ)
    (hv : core.nid ∉ s.vis) (ht0 : ¬ core.TagName = [])
    (htn : ¬ core.TagName = strBytes "nothing")
    (htu : ¬ core.TagName = strBytes "reuse")
    (hntt : core.ntt = 0) (hhd : hdlAny core.hdl = false) :
    serialize (.mk core []) s =
      .ok { vm := XAS.AddInstr (elemVM core s.vm) OpNext [], tr := s.tr,
            ctr := s.ctr, vis := s.vis ++ [core.nid] } := by
  have hcn : (if core.ntt = 0 ∧ hdlAny core.hdl = true then s.ctr.Inc
              else (s.ctr, core.ntt)) = (s.ctr, (0 : Entity)) := by
    rw [if_neg, hntt]
    simp [hhd]
  rw [serialize_elem_zero core [] s s.ctr hv ht0 htn htu hcn]
  rw [serializeList]
  rfl

theorem decodeInstrs_step (f : Nat) (op : Nat) (rest : List Nat) :
    decodeInstrs (f + 1) (op :: rest) =
      (operandCount op).bind (fun k =>
        (readStrs k rest).bind (fun sr =>
          if op = OpTerm then some ([(op, sr.1)], sr.2)
          else (decodeInstrs f sr.2).bind (fun ir => some ((op, sr.1) :: ir.1, ir.2)))) := by
  rw [decodeInstrs]
  rfl

/-- A node whose text is 65536 bytes long: the 16-bit length prefix
truncates to 0 on the wire. -/
def bigCore : NodeCore Nat :=
  { nid := 1, ntt := 0, TagName := [97], Classes := [],
    Text := List.replicate 65536 48, Attrs := [], Focused := false,
    old := 0, hdl := noHandler Nat }

/-- The single-node tree with the oversized text. -/
def bigRoot : Context Nat → Node Nat := fun _ => .mk bigCore []

/-- An action that keeps the state and is not `NoAction`. -/
def okAct : Context Nat → Except String (Context Nat) := fun _ => .ok (some 0)

/-- The program the engine produces for `bigRoot`: the add-text length
prefix is `0, 0` (65536 truncated to 16 bits) yet 65536 raw bytes follow. -/
def bigProg : XAS :=
  1 :: 0 :: 1 :: 97 :: 5 :: 0 :: 0 :: (List.replicate 65536 48 ++ [8, 0])

theorem bigTextNe : List.replicate 65536 48 ≠ ([] : List Nat) := by
  intro h
  have h2 := congrArg List.length h
  rw [List.length_replicate] at h2
  exact absurd h2 (by norm_num)

theorem bigVM : elemVM bigCore [] = [1, 0, 1, 97, 5, 0, 0] ++ List.replicate 65536 48 := by
  have hT : bigCore.Text = List.replicate 65536 48 := rfl
  have hC : bigCore.Classes = ([] : GoString) := rfl
  have hA : bigCore.Attrs = ([] : List Attr) := rfl
  have hTag : bigCore.TagName = [97] := rfl
  simp only [elemVM, attrsFold, hC, hT, hA, hTag, List.foldl_nil]
  rw [if_pos bigTextNe]
  rw [if_neg (fun hcon => hcon rfl)]
  rw [AddInstr_encOps, AddInstr_encOps, encOps_cons, encOps_cons]
  rw [List.length_replicate]
  rw [show enc16 (List.length [97]) = [0, 1] from rfl]
  rw [show enc16 65536 = [0, 0] from rfl]
  rw [show encOps ([] : List GoString) = [] from rfl]
  simp only [List.nil_append, List.append_nil, List.cons_append, List.append_assoc]
  rfl
theorem obind_some {α β : Type} (a : α) (f : α → Option β) :
    (some a).bind f = f a := rfl

theorem readStr_cons (b1 b2 : Nat) (rest : List Nat) (h : b1 * 256 + b2 ≤ rest.length) :
    readStr (b1 :: b2 :: rest) =
      some (rest.take (b1 * 256 + b2), rest.drop (b1 * 256 + b2)) := by
  rw [readStr]
  rw [if_pos h]

theorem readStrs_one (l : List Nat) :
    readStrs 1 l = (readStr l).bind (fun sr => some ([sr.1], sr.2)) := by
  cases hr : readStr l with
  | none => rw [show (1 : Nat) = 0 + 1 from rfl, readStrs, hr]; rfl
  | some sr => rw [show (1 : Nat) = 0 + 1 from rfl, readStrs, hr]; rfl

/-- C6 counterexample: with a 65536-byte text operand, a completed render
cycle produces `bigProg` — whose add-text length prefix is the truncated
`0, 0` — and decoding it fails: it cannot consume exactly the bytes
produced. -/
theorem C6_counterexample :
    turncrank bigRoot (engineInit 0) okAct =
      .ok (some bigProg,
           { et := ⟨[], []⟩, gen := 1, cnt := ⟨1⟩, g0 := 0 }) ∧
    decodeProg bigProg = none := by
  constructor
  · rw [turncrank]
    show (Except.ok (some 0) : Except String (Context Nat)).bind _ = _
    simp only [Bind.bind, Except.bind]
    rw [show bigRoot (some 0) = Node.mk bigCore [] from rfl]
    rw [serialize_leaf bigCore
          { vm := [], tr := (engineInit 0).et, ctr := (engineInit 0).cnt, vis := [] }
          (by simp) (by decide) (by decide) (by decide) rfl hdlAny_noHandler]
    simp only []
    have hprogeq : XAS.AddInstr (XAS.AddInstr (elemVM bigCore []) OpNext []) OpTerm [] =
        bigProg := by
      rw [AddInstr_encOps, AddInstr_encOps, bigVM]
      rw [show encOps ([] : List GoString) = [] from rfl]
      simp only [List.append_nil, List.append_assoc]
      rfl
    rw [hprogeq]
    rfl
  · have hlen : bigProg.length = 65545 := by
      have h1 : bigProg = [1, 0, 1, 97, 5, 0, 0] ++ (List.replicate 65536 48 ++ [8, 0]) :=
        rfl
      rw [h1, List.length_append, List.length_append, List.length_replicate]
      rfl
    rw [decodeProg, hlen]
    rw [show bigProg = 1 :: 0 :: 1 :: 97 :: 5 :: 0 :: 0 ::
          (List.replicate 65536 48 ++ [8, 0]) from rfl]
    rw [show (65545 : Nat) = 65544 + 1 by norm_num, decodeInstrs_step]
    rw [show operandCount 1 = some 1 from rfl]
    rw [obind_some]
    have hlen2 : (97 :: 5 :: 0 :: 0 :: (List.replicate 65536 48 ++ [8, 0])).length =
        65542 := by
      have h1 : (97 :: 5 :: 0 :: 0 :: (List.replicate 65536 48 ++ [8, 0])) =
          [97, 5, 0, 0] ++ (List.replicate 65536 48 ++ [8, 0]) := rfl
      rw [h1, List.length_append, List.length_append, List.length_replicate]
      simp only [List.length_cons, List.length_nil]
    rw [readStrs_one, readStr_cons 0 1 _ (by rw [hlen2]; norm_num)]
    rw [show List.take (0 * 256 + 1)
          (97 :: 5 :: 0 :: 0 :: (List.replicate 65536 48 ++ [8, 0])) = [97] from rfl]
    rw [show List.drop (0 * 256 + 1)
          (97 :: 5 :: 0 :: 0 :: (List.replicate 65536 48 ++ [8, 0])) =
        5 :: 0 :: 0 :: (List.replicate 65536 48 ++ [8, 0]) from rfl]
    rw [obind_some, obind_some]
    rw [if_neg (by decide : ¬ (1 : Nat) = OpTerm)]
    rw [show (65544 : Nat) = 65543 + 1 by norm_num, decodeInstrs_step]
    rw [show operandCount 5 = some 1 from rfl]
    rw [obind_some]
    rw [readStrs_one, readStr_cons 0 0 _ (Nat.zero_le _)]
    rw [show List.take (0 * 256 + 0) (List.replicate 65536 48 ++ [8, 0]) = [] from rfl]
    rw [show List.drop (0 * 256 + 0) (List.replicate 65536 48 ++ [8, 0]) =
        List.replicate 65536 48 ++ [8, 0] from rfl]
    rw [obind_some, obind_some]
    rw [if_neg (by decide : ¬ (5 : Nat) = OpTerm)]
    rw [show (65536 : Nat) = 65535 + 1 by norm_num, List.replicate_succ, List.cons_append]
    rw [show (65543 : Nat) = 65542 + 1 by norm_num, decodeInstrs_step]
    rw [show operandCount 48 = none from rfl]
    rfl

/-! ### C9: sharing a node across positions is a fatal cycle error -/

/-- C9: a node whose visited flag is already set is rejected with the fatal
"cycle detected" panic before anything is emitted; hence a node tree whose
preorder walk would visit the same node object twice (a duplicate `nid` in
`reach`) can never serialize successfully, from any state. -/
theorem C9_shared_node_fatal :
    (∀ (σ : Type) (core : NodeCore σ) (cs : List (Node σ)) (s : SState σ),
      core.nid ∈ s.vis →
      serialize (.mk core cs) s = .error "cycle detected") ∧
    (∀ (σ : Type) (n : Node σ) (s out : SState σ),
      ¬ (reach n).Nodup → serialize n s ≠ .ok out) := by
  constructor
  · intro σ core cs s h
    exact serialize_visited core cs s h
  · intro σ n s out hnd hok
    obtain ⟨E, recs, -, -, -, -, hdup, -, -⟩ := serialize_shift n s out hok
    exact hnd hdup

/-! ### C10: reusing an absent entity is a silent near-no-op -/

/-- C10: when the source entity is absent from the previous generation
(`locate` returns `-1`), `children` returns the empty slice, `reuse`
appends zero records and reports zero rename pairs — and it can never
return the "reusing invalid entity" error at all, since the assertion
compares `len(t.g0)` (a natural) against `-1`; serializing such a "reuse"
node still emits the reuse instruction naming the absent entity, with the
tree, counter untouched. -/
theorem C10_absent_reuse_silent :
    (∀ (σ : Type) (t : etree σ) (frm : Entity),
      t.locate frm = -1 → t.children frm = []) ∧
    (∀ (σ : Type) (t : etree σ) (frm tgt : Entity) (c : Counter),
      t.locate frm = -1 → t.reuse frm tgt c = .ok (t, c, [])) ∧
    (∀ (σ : Type) (t : etree σ) (frm tgt : Entity) (c : Counter),
      ∃ r, t.reuse frm tgt c = .ok r) ∧
    (∀ (σ : Type) (core : NodeCore σ) (cs : List (Node σ)) (s : SState σ),
      core.nid ∉ s.vis → core.TagName = strBytes "reuse" →
      s.tr.locate core.old = -1 →
      serialize (.mk core cs) s =
        .ok { vm := XAS.AddInstr s.vm OpReuse [decBytes core.old],
              tr := s.tr, ctr := s.ctr, vis := s.vis ++ [core.nid] }) := by
  have hch : ∀ (σ : Type) (t : etree σ) (frm : Entity),
      t.locate frm = -1 → t.children frm = [] := by
    intro σ t frm h
    rw [etree.children]
    simp [h]
  refine ⟨hch, ?_, ?_, ?_⟩
  · intro σ t frm tgt c h
    rw [reuse_ok, hch σ t frm h]
    show Except.ok ({ t with g0 := t.g0 ++ [] }, c, ([] : List (Entity × Entity))) = _
    rw [List.append_nil]
  · intro σ t frm tgt c
    exact ⟨_, reuse_ok t frm tgt c⟩
  · intro σ core cs s hv htag hloc
    rw [serialize_reuse core cs s hv htag, hch σ s.tr core.old hloc]
    show Except.ok ({ vm := XAS.AddInstr s.vm OpReuse [decBytes core.old],
                      tr := { s.tr with g0 := s.tr.g0 ++ [] }, ctr := s.ctr,
                      vis := s.vis ++ [core.nid] } : SState σ) = _
    rw [List.append_nil]

/-! ### C8: AddClasses is not the idempotent concatenation its doc claims -/

/-- A node with class string "flex" (the doc comment's own example shape). -/
def flexCore : NodeCore Unit :=
  { nid := 1, ntt := 0, TagName := strBytes "div", Classes := strBytes "flex",
    Text := [], Attrs := [], Focused := false, old := 0, hdl := noHandler Unit }

/-- C8: contradicting its own documentation ("idempotent concatenation;
empty class list is a no-op"), `AddClasses` concatenates unconditionally:
adding the already-present token "flex" yields "flex flex", and adding an
empty token list to a node with classes appends a trailing space — neither
call leaves the class string unchanged. -/
theorem C8_addclasses_not_idempotent :
    ((Node.mk flexCore []).AddClasses [strBytes "flex"]).core.Classes =
      strBytes "flex flex" ∧
    ((Node.mk flexCore []).AddClasses []).core.Classes = strBytes "flex " ∧
    ((Node.mk flexCore []).AddClasses [strBytes "flex"]).core.Classes ≠
      flexCore.Classes ∧
    ((Node.mk flexCore []).AddClasses []).core.Classes ≠ flexCore.Classes := by
  refine ⟨?_, ?_, ?_, ?_⟩ <;> decide

/-! ### C2: stale-generation events — state kept, but a program IS emitted -/

/-- C2 (amended): an interaction whose generation stamp differs from the
engine's current generation does not mutate the application state — the
dispatch closure returns its input context unchanged — but the driver does
not return to idle empty-handed: the unchanged context is not the
`NoAction` sentinel, so the cycle re-renders and emits a Mutation Program
whenever serialization succeeds. -/
theorem C2_stale_event_keeps_state {σ : Type} (ng : EngineModel σ)
    (cf : CallFrameM) (root : Context σ → Node σ) (s2 : SState σ)
    (hg : cf.Gen ≠ ng.gen)
    (hser : serialize (root (some ng.g0))
        { vm := [], tr := ng.et, ctr := ng.cnt, vis := [] } = .ok s2) :
    (∀ ctx, doIntent ng cf ctx = .ok ctx) ∧
    turncrank root ng (doIntent ng cf) =
      .ok (some (XAS.AddInstr s2.vm OpTerm []),
           { et := s2.tr.ngen, gen := ng.gen + 1, cnt := ⟨(ng.gen + 1) % 2⟩,
             g0 := ng.g0 }) := by
  have hdo : ∀ ctx, doIntent ng cf ctx = .ok ctx := by
    intro ctx
    rw [doIntent, if_pos hg]
  refine ⟨hdo, ?_⟩
  rw [turncrank, hdo (some ng.g0)]
  simp only [Bind.bind, Except.bind]
  rw [hser]

/-- A plain `<div>` leaf node over `Nat` state. -/
def divCore : NodeCore Nat :=
  { nid := 1, ntt := 0, TagName := strBytes "div", Classes := [],
    Text := [], Attrs := [], Focused := false, old := 0, hdl := noHandler Nat }

/-- A constant widget tree: the `<div>` leaf. -/
def divRoot : Context Nat → Node Nat := fun _ => .mk divCore []

/-- An engine at generation `1` with empty entity buffers. -/
def ng1 : EngineModel Nat :=
  { et := ⟨[], []⟩, gen := 1, cnt := ⟨1⟩, g0 := 0 }

/-- An interaction stamped with the previous generation `0`. -/
def cf0 : CallFrameM := { Gen := 0, Entity := 0, it := ⟨0, by norm_num⟩ }

/-- C2 counterexample: a stale event (stamp `0` against generation `1`)
does reach the render loop: the cycle completes and a Mutation Program is
produced — `create-element("div"), advance, terminate` — contradicting
"no Mutation Program is produced for that event". -/
theorem C2_counterexample :
    cf0.Gen ≠ ng1.gen ∧
    turncrank divRoot ng1 (doIntent ng1 cf0) =
      .ok (some [1, 0, 3, 100, 105, 118, 8, 0],
           { et := ⟨[], []⟩, gen := 2, cnt := ⟨0⟩, g0 := 0 }) := by
  refine ⟨by decide, ?_⟩
  have hdo : doIntent ng1 cf0 (some ng1.g0) = .ok (some ng1.g0) := by
    rw [doIntent, if_pos (by decide)]
  rw [turncrank, hdo]
  simp only [Bind.bind, Except.bind]
  rw [show divRoot (some ng1.g0) = Node.mk divCore [] from rfl]
  rw [serialize_leaf divCore { vm := [], tr := ng1.et, ctr := ng1.cnt, vis := [] }
        (by decide) (by decide) (by decide) (by decide) rfl hdlAny_noHandler]
  rfl

theorem C2_witness :
    (∀ ctx, doIntent ng1 cf0 ctx = .ok ctx) ∧
    turncrank divRoot ng1 (doIntent ng1 cf0) =
      .ok (some (XAS.AddInstr [1, 0, 3, 100, 105, 118, 8] OpTerm []),
           { et := etree.ngen (⟨[], []⟩ : etree Nat), gen := 2, cnt := ⟨0⟩,
             g0 := 0 }) := by
  have hser : serialize (divRoot (some ng1.g0))
      { vm := [], tr := ng1.et, ctr := ng1.cnt, vis := [] } =
      .ok { vm := [1, 0, 3, 100, 105, 118, 8], tr := ⟨[], []⟩, ctr := ⟨1⟩,
            vis := [1] } := by
    rw [show divRoot (some ng1.g0) = Node.mk divCore [] from rfl]
    exact serialize_leaf divCore _ (by decide) (by decide) (by decide) (by decide)
      rfl hdlAny_noHandler
  exact C2_stale_event_keeps_state ng1 cf0 divRoot
    { vm := [1, 0, 3, 100, 105, 118, 8], tr := ⟨[], []⟩, ctr := ⟨1⟩, vis := [1] }
    (by decide) hser

/-! ### C7: the `<div class="flex">hi<button></button></div>` example -/

/-- The `<button>` leaf of the example. -/
def buttonCore : NodeCore Nat :=
  { nid := 2, ntt := 0, TagName := strBytes "button", Classes := [],
    Text := [], Attrs := [], Focused := false, old := 0, hdl := noHandler Nat }

/-- `<div class="flex">` with text "hi". -/
def divFlexCore : NodeCore Nat :=
  { nid := 1, ntt := 0, TagName := strBytes "div", Classes := strBytes "flex",
    Text := strBytes "hi", Attrs := [], Focused := false, old := 0,
    hdl := noHandler Nat }

/-- The node tree for `<div class="flex">hi<button></button></div>`. -/
def tree7 : Node Nat := .mk divFlexCore [.mk buttonCore []]

/-- The Mutation Program the example produces, terminate included. -/
def prog7 : XAS :=
  [1, 0, 3, 100, 105, 118, 2, 0, 4, 102, 108, 101, 120, 5, 0, 2, 104, 105,
   1, 0, 6, 98, 117, 116, 116, 111, 110, 8, 8, 0]

/-- The example's instruction sequence: create-element("div"),
set-class("flex"), add-text("hi"), create-element("button"), advance,
advance, terminate. -/
def instrs7 : List (Nat × List GoString) :=
  [(OpCreateElement, [strBytes "div"]), (OpSetClass, [strBytes "flex"]),
   (OpAddText, [strBytes "hi"]), (OpCreateElement, [strBytes "button"]),
   (OpNext, []), (OpNext, []), (OpTerm, [])]

theorem serialize_tree7 :
    serialize tree7 { vm := [], tr := ⟨[], []⟩, ctr := ⟨0⟩, vis := [] } =
      .ok { vm := [1, 0, 3, 100, 105, 118, 2, 0, 4, 102, 108, 101, 120,
                   5, 0, 2, 104, 105, 1, 0, 6, 98, 117, 116, 116, 111, 110,
                   8, 8],
            tr := ⟨[], []⟩, ctr := ⟨0⟩, vis := [1, 2] } := by
  rw [show tree7 = Node.mk divFlexCore [Node.mk buttonCore []] from rfl]
  rw [serialize_elem_zero divFlexCore [Node.mk buttonCore []] _ ⟨0⟩
        (by decide) (by decide) (by decide) (by decide) (by decide)]
  rw [serializeList]
  rw [serialize_leaf buttonCore _ (by decide) (by decide) (by decide) (by decide)
        rfl hdlAny_noHandler]
  simp only [Bind.bind, Except.bind]
  rw [serializeList]
  rfl

/-- C7: a completed render cycle on the example tree produces exactly the
instruction sequence create-element("div"), set-class("flex"),
add-text("hi"), create-element("button"), advance, advance, terminate —
and no set-id instruction appears, there being no entity or handler. -/
theorem C7_div_flex_hi_button :
    turncrank (fun _ => tree7) (engineInit 0) (fun c => .ok c) =
      .ok (some prog7, { et := ⟨[], []⟩, gen := 1, cnt := ⟨1⟩, g0 := 0 }) ∧
    decodeProg prog7 = some (instrs7, []) ∧
    ∀ q ∈ instrs7, q.1 ≠ OpSetID := by
  refine ⟨?_, by decide, by decide⟩
  rw [turncrank]
  show (Except.ok (some 0) : Except String (Context Nat)).bind _ = _
  simp only [Bind.bind, Except.bind]
  rw [show (engineInit 0).et = (⟨[], []⟩ : etree Nat) from rfl,
      show (engineInit 0).cnt = (⟨0⟩ : Counter) from rfl]
  rw [serialize_tree7]
  rfl

/-! ### C5: transparent ("nothing") nodes are invisible -/

/-- C5: serializing a structural no-op node (tag "nothing") with child list
`cs` at any position in parent `P`'s children produces the same instruction
stream, entity tree and counter as serializing the members of `cs` directly
as children of `P` at that position: no instruction or tree record is
attributable to the transparent node itself. -/
theorem C5_transparent_invisible {σ : Type} (pc nc : NodeCore σ)
    (xs cs ys : List (Node σ)) (s out : SState σ)
    (htag : nc.TagName = strBytes "nothing")
    (h : serialize (.mk pc (xs ++ .mk nc cs :: ys)) s = .ok out) :
    ∃ vis2, serialize (.mk pc (xs ++ cs ++ ys)) s =
      .ok { vm := out.vm, tr := out.tr, ctr := out.ctr, vis := vis2 } :=
  transparent_node_invisible pc nc xs cs ys s out htag h

/-- A "nothing" (transparent) node core. -/
def nothingCore : NodeCore Nat :=
  { nid := 10, ntt := 0, TagName := strBytes "nothing", Classes := [],
    Text := [], Attrs := [], Focused := false, old := 0, hdl := noHandler Nat }

/-- Leaf `<b>` (the witness's child A). -/
def bCore : NodeCore Nat :=
  { nid := 2, ntt := 0, TagName := [98], Classes := [],
    Text := [], Attrs := [], Focused := false, old := 0, hdl := noHandler Nat }

/-- Leaf `<i>` (the witness's child B). -/
def iCore : NodeCore Nat :=
  { nid := 3, ntt := 0, TagName := [105], Classes := [],
    Text := [], Attrs := [], Focused := false, old := 0, hdl := noHandler Nat }

theorem serialize_c5_parent :
    serialize (.mk divCore ([] ++ .mk nothingCore [.mk bCore [], .mk iCore []] :: []))
      { vm := [], tr := ⟨[], []⟩, ctr := ⟨0⟩, vis := [] } =
    .ok { vm := [1, 0, 3, 100, 105, 118, 1, 0, 1, 98, 8, 1, 0, 1, 105, 8, 8],
          tr := ⟨[], []⟩, ctr := ⟨0⟩, vis := [1, 10, 2, 3] } := by
  simp only [List.nil_append]
  rw [serialize_elem_zero divCore _ _ ⟨0⟩
        (by decide) (by decide) (by decide) (by decide) (by decide)]
  rw [serializeList]
  rw [serialize_nothing nothingCore [.mk bCore [], .mk iCore []] _ (by decide) rfl]
  rw [serializeList]
  rw [serialize_leaf bCore _ (by decide) (by decide) (by decide) (by decide)
        rfl hdlAny_noHandler]
  simp only [Bind.bind, Except.bind]
  rw [serializeList]
  rw [serialize_leaf iCore _ (by decide) (by decide) (by decide) (by decide)
        rfl hdlAny_noHandler]
  simp only [Bind.bind, Except.bind]
  rw [serializeList]
  rfl

theorem C5_witness :
    ∃ vis2, serialize (.mk divCore ([] ++ [Node.mk bCore [], Node.mk iCore []] ++ []))
        { vm := [], tr := ⟨[], []⟩, ctr := ⟨0⟩, vis := [] } =
      .ok { vm := [1, 0, 3, 100, 105, 118, 1, 0, 1, 98, 8, 1, 0, 1, 105, 8, 8],
            tr := ⟨[], []⟩, ctr := ⟨0⟩, vis := vis2 } :=
  C5_transparent_invisible divCore nothingCore []
    [Node.mk bCore [], Node.mk iCore []] []
    { vm := [], tr := ⟨[], []⟩, ctr := ⟨0⟩, vis := [] }
    { vm := [1, 0, 3, 100, 105, 118, 1, 0, 1, 98, 8, 1, 0, 1, 105, 8, 8],
      tr := ⟨[], []⟩, ctr := ⟨0⟩, vis := [1, 10, 2, 3] }
    rfl serialize_c5_parent

/-! ### Witnesses for C1 and C6 -/

/-- A `<div>` leaf carrying entity `2` (generation-0 parity). -/
def entCore : NodeCore Nat :=
  { nid := 1, ntt := 2, TagName := strBytes "div", Classes := [],
    Text := [], Attrs := [], Focused := false, old := 0, hdl := noHandler Nat }

theorem serialize_entCore :
    serialize (.mk entCore [])
      { vm := [], tr := (engineInit 0).et, ctr := (engineInit 0).cnt, vis := [] } =
      .ok { vm := XAS.AddInstr (elemVMid entCore 2 []) OpNext [],
            tr := ⟨[{ ntt := 2, scp := 1, hdl := noHandler Nat }], []⟩,
            ctr := ⟨0⟩, vis := [1] } := by
  rw [serialize_elem_id entCore [] _ ⟨0⟩ 2
        (by decide) (by decide) (by decide) (by decide) (by decide)
        (by decide) (by decide)]
  rw [serializeList]
  rfl

theorem C1_witness :
    (2 : Entity) ∉ entsOf ([] : List (prenode Nat)) :=
  C1_generations_disjoint 0 (engineInit 0) (RunOK.refl _) (.mk entCore [])
    (MintedOK.mk entCore [] (fun _ => by decide) (fun h => absurd h (by decide))
      (fun c hc => absurd hc (List.not_mem_nil c)))
    { vm := XAS.AddInstr (elemVMid entCore 2 []) OpNext [],
      tr := ⟨[{ ntt := 2, scp := 1, hdl := noHandler Nat }], []⟩,
      ctr := ⟨0⟩, vis := [1] }
    serialize_entCore 2 (by simp [entsOf])

theorem turncrank_divRoot :
    turncrank divRoot (engineInit 0) (fun c => .ok c) =
      .ok (some [1, 0, 3, 100, 105, 118, 8, 0],
           { et := ⟨[], []⟩, gen := 1, cnt := ⟨1⟩, g0 := 0 }) := by
  rw [turncrank]
  show (Except.ok (some 0) : Except String (Context Nat)).bind _ = _
  simp only [Bind.bind, Except.bind]
  rw [show divRoot (some 0) = Node.mk divCore [] from rfl]
  rw [serialize_leaf divCore
        { vm := [], tr := ((engineInit 0).et), ctr := ((engineInit 0).cnt), vis := [] }
        (by decide) (by decide) (by decide) (by decide) rfl hdlAny_noHandler]
  rfl

theorem C6_witness :
    List.getLast? [1, 0, 3, 100, 105, 118, 8, 0] = some OpTerm ∧
    ∃ is, decodeProg [1, 0, 3, 100, 105, 118, 8, 0] =
        some (is ++ [(OpTerm, [])], []) ∧
      ∀ q ∈ is, q.1 ≠ OpTerm :=
  C6_program_decodes divRoot (engineInit 0) (fun c => .ok c)
    [1, 0, 3, 100, 105, 118, 8, 0]
    { et := ⟨[], []⟩, gen := 1, cnt := ⟨1⟩, g0 := 0 }
    turncrank_divRoot
    (fun ctx => StrOK.mk divCore [] (by decide) (by decide) (by decide)
      (fun a ha => absurd ha (List.not_mem_nil a)) (by decide) (by decide)
      (fun c hc => absurd hc (List.not_mem_nil c)))
    (fun p hp => absurd hp (List.not_mem_nil p))

/-! ### C3: the renaming discipline of `etree.reuse` -/

theorem renameRecs_len {σ : Type} (tgt : Entity) :
    ∀ (ps : List (prenode σ)) (c : Counter) (i : Nat),
      (renameRecs tgt c i ps).1.length = ps.length := by
  intro ps
  induction ps with
  | nil => intro c i; rfl
  | cons p ps ih =>
    intro c i
    by_cases hi : i = 0
    · subst hi
      rw [renameRecs_cons_zero]
      simp only [List.length_cons, ih]
    · obtain ⟨j, rfl⟩ : ∃ j, i = j + 1 := ⟨i - 1, by omega⟩
      rw [renameRecs_cons_succ]
      simp only [List.length_cons, ih]

theorem renameRecs_pairs {σ : Type} (tgt : Entity) :
    ∀ (ps : List (prenode σ)) (c : Counter) (i : Nat),
      (renameRecs tgt c i ps).2.2 =
        (ps.zip (renameRecs tgt c i ps).1).filterMap
          (fun q => if q.2.ntt = q.1.ntt then none else some (q.1.ntt, q.2.ntt)) := by
  intro ps
  induction ps with
  | nil => intro c i; rfl
  | cons p ps ih =>
    intro c i
    by_cases hi : i = 0
    · subst hi
      rw [renameRecs_cons_zero]
      simp only [List.zip_cons_cons, List.filterMap_cons]
      by_cases hne : tgt = p.ntt
      · rw [if_pos hne, if_neg (by simpa using hne)]
        simpa using ih c 1
      · rw [if_neg hne, if_pos (by simpa using hne)]
        simpa using ih c 1
    · obtain ⟨j, rfl⟩ : ∃ j, i = j + 1 := ⟨i - 1, by omega⟩
      rw [renameRecs_cons_succ]
      simp only [List.zip_cons_cons, List.filterMap_cons]
      by_cases hne : (c.Inc).2 = p.ntt
      · rw [if_pos hne, if_neg (by simpa using hne)]
        simpa using ih (c.Inc).1 (j + 2)
      · rw [if_neg hne, if_pos (by simpa using hne)]
        simpa using ih (c.Inc).1 (j + 2)

theorem nat_step_lt (a k u : Nat) (h : a + 2 * (k + 1) < u) : a + 2 < u := by
  omega

theorem nat_step_lt2 (a k u : Nat) (h : a + 2 * (k + 1) < u) :
    a + 2 + 2 * k < u := by
  omega

theorem nat_step_eq (a k : Nat) : a + 2 + 2 * k = a + 2 * (k + 1) := by
  omega

theorem renameRecs_tail_spec {σ : Type} (tgt : Entity) :
    ∀ (ps : List (prenode σ)) (c : Counter) (i : Nat),
      c.val + 2 * ps.length < U32 →
      (renameRecs tgt c (i + 1) ps).2.1.val = c.val + 2 * ps.length ∧
      ∀ (j : Nat) (hj : j < ps.length)
        (hj2 : j < (renameRecs tgt c (i + 1) ps).1.length),
        (renameRecs tgt c (i + 1) ps).1.get ⟨j, hj2⟩ =
          { ps.get ⟨j, hj⟩ with ntt := c.val + 2 * (j + 1) } := by
  intro ps
  induction ps with
  | nil =>
    intro c i h
    refine ⟨by simp [renameRecs], ?_⟩
    intro j hj
    exact absurd hj (by simp)
  | cons p ps ih =>
    intro c i h
    rw [List.length_cons] at h
    have hlt : c.val + 2 < U32 := nat_step_lt c.val ps.length U32 h
    have hinc2 : (c.Inc).2 = c.val + 2 := by
      show (c.val + 2) % U32 = c.val + 2
      exact Nat.mod_eq_of_lt hlt
    have hinc1 : (c.Inc).1 = ⟨c.val + 2⟩ := by
      show (⟨(c.val + 2) % U32⟩ : Counter) = ⟨c.val + 2⟩
      rw [Nat.mod_eq_of_lt hlt]
    have h2 : (⟨c.val + 2⟩ : Counter).val + 2 * ps.length < U32 :=
      nat_step_lt2 c.val ps.length U32 h
    have hrec := ih ⟨c.val + 2⟩ (i + 1) h2
    rw [renameRecs_cons_succ, hinc1, hinc2]
    constructor
    · show (renameRecs tgt ⟨c.val + 2⟩ (i + 1 + 1) ps).2.1.val = _
      rw [hrec.1]
      show c.val + 2 + 2 * ps.length = c.val + 2 * (ps.length + 1)
      exact nat_step_eq c.val ps.length
    · intro j hj hj2
      cases j with
      | zero => rfl
      | succ j2 =>
        have hj3 : j2 < ps.length := Nat.lt_of_succ_lt_succ hj
        have hj4 : j2 < (renameRecs tgt ⟨c.val + 2⟩ (i + 1 + 1) ps).1.length := by
          rw [renameRecs_len]
          exact hj3
        show (renameRecs tgt ⟨c.val + 2⟩ (i + 1 + 1) ps).1.get ⟨j2, hj4⟩ = _
        rw [hrec.2 j2 hj3 hj4]
        show { ps.get ⟨j2, hj3⟩ with ntt := c.val + 2 + 2 * (j2 + 1) } =
          { (p :: ps).get ⟨j2 + 1, hj⟩ with ntt := c.val + 2 * (j2 + 1 + 1) }
        have hg : (p :: ps).get ⟨j2 + 1, hj⟩ = ps.get ⟨j2, hj3⟩ := rfl
        rw [hg, nat_step_eq c.val (j2 + 1)]

theorem findIdx?_some {α : Type} (p : α → Bool) :
    ∀ (l : List α) (i j : Nat), List.findIdx? p l i = some j →
      i ≤ j ∧ ∃ hk : j - i < l.length, p (l.get ⟨j - i, hk⟩) = true := by
  intro l
  induction l with
  | nil => intro i j h; simp [List.findIdx?] at h
  | cons x xs ih =>
    intro i j h
    rw [List.findIdx?] at h
    by_cases hp : p x
    · rw [if_pos hp] at h
      obtain rfl : i = j := by simpa using h
      refine ⟨Nat.le_refl _, ⟨by simp, ?_⟩⟩
      have hz : (⟨i - i, by simp⟩ : Fin (x :: xs).length) = ⟨0, by simp⟩ := by
        have h0 : i - i = 0 := by omega
        simp [h0]
      rw [hz]
      exact hp
    · rw [if_neg hp] at h
      obtain ⟨hle, hk, hpk⟩ := ih (i + 1) j h
      refine ⟨by omega, ?_⟩
      have hlt : j - i < (x :: xs).length := by
        simp only [List.length_cons]
        omega
      refine ⟨hlt, ?_⟩
      have hji : j - i = (j - (i + 1)) + 1 := by omega
      have hg : (x :: xs).get ⟨j - i, hlt⟩ = xs.get ⟨j - (i + 1), hk⟩ := by
        rw [show (⟨j - i, hlt⟩ : Fin (x :: xs).length) =
              ⟨(j - (i + 1)) + 1, by simp only [List.length_cons]; omega⟩ by
            simp [hji]]
        rfl
      rw [hg]
      exact hpk

theorem children_head {σ : Type} (t : etree σ) (frm : Entity)
    (p0 : prenode σ) (ps2 : List (prenode σ))
    (h : t.children frm = p0 :: ps2) : p0.ntt = frm := by
  rw [etree.children] at h
  by_cases hi : t.locate frm = -1
  · rw [if_pos hi] at h
    exact absurd h (by simp)
  · cases hf : List.findIdx? (fun p => decide (p.ntt = frm)) t.g1 with
    | none =>
      exact absurd (by rw [etree.locate, hf]) hi
    | some j =>
      have hloc : t.locate frm = (j : Int) := by rw [etree.locate, hf]
      rw [if_neg hi, hloc] at h
      obtain ⟨-, hk, hpk⟩ := findIdx?_some _ t.g1 0 j hf
      have hk2 : j < t.g1.length := by omega
      have htn : (t.g1.get ⟨j, hk2⟩).ntt = frm := by
        simpa using hpk
      have hdrop : t.g1.drop ((j : Int)).toNat = t.g1.drop j := by
        norm_num
      rw [hdrop] at h
      have hhead := congrArg List.head? h
      rw [List.head?_take] at hhead
      by_cases hz : (((t.g1[((j : Int)).toNat]?).map prenode.scp).getD 0) = 0
      · rw [if_pos hz] at hhead
        exact absurd hhead (by simp)
      · rw [if_neg hz] at hhead
        rw [List.head?_drop] at hhead
        have hjn : t.g1[j]? = some (t.g1.get ⟨j, hk2⟩) := by
          rw [List.getElem?_eq_getElem hk2]
          rfl
        rw [hjn] at hhead
        have hp0 : t.g1.get ⟨j, hk2⟩ = p0 := by
          have hb := hhead.symm
          simp only [List.head?_cons, Option.some.injEq] at hb
          exact hb.symm
        rw [← hp0]
        exact htn

theorem nat_mod2_add2 (a : Nat) : (a + 2) % 2 = a % 2 := by
  omega

theorem nat_mod2_ne (a b : Nat) (h : a % 2 ≠ b % 2) : a ≠ b := by
  intro hc
  subst hc
  exact h rfl

theorem renameRecs_tail_pairs {σ : Type} (tgt : Entity) :
    ∀ (ps : List (prenode σ)) (c : Counter) (i : Nat),
      c.val + 2 * ps.length < U32 →
      (∀ p ∈ ps, p.ntt % 2 ≠ c.val % 2) →
      (renameRecs tgt c (i + 1) ps).2.2.length = ps.length := by
  intro ps
  induction ps with
  | nil => intro c i _ _; rfl
  | cons p ps ih =>
    intro c i h hpar
    rw [List.length_cons] at h
    have hlt : c.val + 2 < U32 := nat_step_lt c.val ps.length U32 h
    have hinc2 : (c.Inc).2 = c.val + 2 := by
      show (c.val + 2) % U32 = c.val + 2
      exact Nat.mod_eq_of_lt hlt
    have hinc1 : (c.Inc).1 = ⟨c.val + 2⟩ := by
      show (⟨(c.val + 2) % U32⟩ : Counter) = ⟨c.val + 2⟩
      rw [Nat.mod_eq_of_lt hlt]
    have h2 : (⟨c.val + 2⟩ : Counter).val + 2 * ps.length < U32 :=
      nat_step_lt2 c.val ps.length U32 h
    have hpar2 : ∀ q ∈ ps, q.ntt % 2 ≠ (⟨c.val + 2⟩ : Counter).val % 2 := by
      intro q hq
      show q.ntt % 2 ≠ (c.val + 2) % 2
      rw [nat_mod2_add2 c.val]
      exact hpar q (List.mem_cons_of_mem _ hq)
    have hne : (c.Inc).2 ≠ p.ntt := by
      rw [hinc2]
      refine nat_mod2_ne _ _ ?_
      rw [nat_mod2_add2 c.val]
      exact fun hc => hpar p (List.mem_cons_self _ _) hc.symm
    rw [renameRecs_cons_succ, hinc1, if_pos hne]
    rw [List.length_append, List.length_cons]
    have hrec := ih ⟨c.val + 2⟩ (i + 1) h2 hpar2
    rw [hrec]
    simp [Nat.add_comm]

theorem nat_drop1 (a k u : Nat) (h : a + 2 * (k + 1) < u) : a + 2 * k < u := by
  omega

theorem nat_fresh_ne (v k t2 : Nat) (hle : t2 ≤ v) : ¬ v + 2 * (k + 1) = t2 := by
  omega

theorem nat_mint_inj (v a b : Nat) (h : v + 2 * (a + 1) = v + 2 * (b + 1)) : a = b := by
  omega

theorem renameRecs_zero_get {σ : Type} (tgt : Entity) (c : Counter)
    (ps : List (prenode σ)) (h : c.val + 2 * ps.length < U32) :
    ∀ (j : Nat) (hj : j < ps.length) (hj2 : j < (renameRecs tgt c 0 ps).1.length),
      (renameRecs tgt c 0 ps).1.get ⟨j, hj2⟩ =
        { ps.get ⟨j, hj⟩ with ntt := if j = 0 then tgt else c.val + 2 * j } := by
  cases ps with
  | nil => intro j hj; exact absurd hj (by simp)
  | cons p0 ps2 =>
    rw [List.length_cons] at h
    have h2 : c.val + 2 * ps2.length < U32 := nat_drop1 c.val ps2.length U32 h
    have htail := renameRecs_tail_spec tgt ps2 c 0 h2
    have hget1 : ∀ (j : Nat) (hj : j < ps2.length)
        (hj2 : j < (renameRecs tgt c 1 ps2).1.length),
        (renameRecs tgt c 1 ps2).1.get ⟨j, hj2⟩ =
          { ps2.get ⟨j, hj⟩ with ntt := c.val + 2 * (j + 1) } := htail.2
    rw [renameRecs_cons_zero]
    simp only []
    intro j hj hj2
    cases j with
    | zero =>
      show { p0 with ntt := tgt } =
        { (p0 :: ps2).get ⟨0, hj⟩ with ntt := if 0 = 0 then tgt else c.val + 2 * 0 }
      rw [if_pos rfl]
      rfl
    | succ j2 =>
      have hj3 : j2 < ps2.length := Nat.lt_of_succ_lt_succ hj
      have hj4 : j2 < (renameRecs tgt c 1 ps2).1.length := by
        rw [renameRecs_len]
        exact hj3
      show (renameRecs tgt c 1 ps2).1.get ⟨j2, hj4⟩ = _
      rw [hget1 j2 hj3 hj4]
      rw [if_neg (Nat.succ_ne_zero j2)]
      rfl

/-- C3: reusing entity `frm` whose recorded previous-generation subtree has
`k` records appends exactly `k` renamed copies to the current generation:
the topmost is renamed to the requested `tgt`, every other to a freshly
minted identity (`c.val + 2·j`) regardless of its old value; the rename
callback sees exactly the `(old, new)` pairs of the records whose identity
changed — `k` pairs, or `k-1` when `tgt` equals `frm` — and the new
generation holds no duplicate identifier.  The hypotheses are the engine's
operating regime: current-generation identifiers are distinct, at most the
counter value, of the counter's parity (while the copied records carry the
previous generation's opposite parity), `tgt` is at most the counter value
and not yet recorded, and the mints do not overflow `2^32`. -/
theorem C3_reuse_renames {σ : Type} (t : etree σ) (frm tgt : Entity) (c : Counter)
    (hnodup : (entsOf t.g0).Nodup)
    (htn : tgt ∉ entsOf t.g0)
    (hold : ∀ e ∈ entsOf t.g0, e ≤ c.val)
    (htle : tgt ≤ c.val)
    (hnw : c.val + 2 * (t.children frm).length < U32)
    (hpar : ∀ p ∈ t.children frm, p.ntt % 2 ≠ c.val % 2) :
    ∃ renamed c2 prs,
      t.reuse frm tgt c = .ok ({ t with g0 := t.g0 ++ renamed }, c2, prs) ∧
      renamed.length = (t.children frm).length ∧
      (∀ (j : Nat) (hj : j < (t.children frm).length) (hj2 : j < renamed.length),
        renamed.get ⟨j, hj2⟩ =
          { (t.children frm).get ⟨j, hj⟩ with
            ntt := if j = 0 then tgt else c.val + 2 * j }) ∧
      prs = ((t.children frm).zip renamed).filterMap
          (fun q => if q.2.ntt = q.1.ntt then none else some (q.1.ntt, q.2.ntt)) ∧
      (t.children frm = [] → prs = []) ∧
      (t.children frm ≠ [] →
        prs.length = if tgt = frm then (t.children frm).length - 1
                     else (t.children frm).length) ∧
      (entsOf (t.g0 ++ renamed)).Nodup := by
  refine ⟨(renameRecs tgt c 0 (t.children frm)).1,
          (renameRecs tgt c 0 (t.children frm)).2.1,
          (renameRecs tgt c 0 (t.children frm)).2.2,
          reuse_ok t frm tgt c, renameRecs_len tgt (t.children frm) c 0,
          renameRecs_zero_get tgt c (t.children frm) hnw,
          renameRecs_pairs tgt (t.children frm) c 0, ?_, ?_, ?_⟩
  · intro hch
    rw [hch]
    rfl
  · intro hne
    obtain ⟨p0, ps2, hch⟩ := List.exists_cons_of_ne_nil hne
    have hfrm : p0.ntt = frm := children_head t frm p0 ps2 hch
    have hnw2 : c.val + 2 * ps2.length < U32 := by
      rw [hch, List.length_cons] at hnw
      exact nat_drop1 c.val ps2.length U32 hnw
    have hpar2 : ∀ p ∈ ps2, p.ntt % 2 ≠ c.val % 2 := by
      intro p hp
      exact hpar p (by rw [hch]; exact List.mem_cons_of_mem _ hp)
    have htp : (renameRecs tgt c 1 ps2).2.2.length = ps2.length :=
      renameRecs_tail_pairs tgt ps2 c 0 hnw2 hpar2
    rw [hch, renameRecs_cons_zero]
    simp only [List.length_append, List.length_cons, htp]
    by_cases htf : tgt = frm
    · rw [if_pos htf, if_neg (by rw [hfrm, htf]; exact fun hc => hc rfl)]
      simp
    · rw [if_neg htf, if_pos (by rw [hfrm]; exact htf)]
      simp only [List.length_singleton]
      exact Nat.add_comm 1 ps2.length
  · cases hch : t.children frm with
    | nil =>
      show (entsOf (t.g0 ++ [])).Nodup
      rw [List.append_nil]
      exact hnodup
    | cons p0 ps2 =>
      have hnw2 : c.val + 2 * ps2.length < U32 := by
        rw [hch, List.length_cons] at hnw
        exact nat_drop1 c.val ps2.length U32 hnw
      have htail := renameRecs_tail_spec tgt ps2 c 0 hnw2
      have hget1 : ∀ (j : Nat) (hj : j < ps2.length)
          (hj2 : j < (renameRecs tgt c 1 ps2).1.length),
          (renameRecs tgt c 1 ps2).1.get ⟨j, hj2⟩ =
            { ps2.get ⟨j, hj⟩ with ntt := c.val + 2 * (j + 1) } := htail.2
      have hTlen : (renameRecs tgt c 1 ps2).1.length = ps2.length :=
        renameRecs_len tgt ps2 c 1
      have hTents : entsOf (renameRecs tgt c 1 ps2).1 =
          (List.range ps2.length).map (fun j => c.val + 2 * (j + 1)) := by
        apply List.ext_get
        · simp only [entsOf, List.length_map, List.length_range, hTlen]
        · intro i h1 h2
          have hi2 : i < ps2.length := by
            simp only [entsOf, List.length_map, hTlen] at h1
            exact h1
          have hi3 : i < (renameRecs tgt c 1 ps2).1.length := by
            rw [hTlen]
            exact hi2
          have hL : (entsOf (renameRecs tgt c 1 ps2).1).get ⟨i, h1⟩ =
              ((renameRecs tgt c 1 ps2).1.get ⟨i, hi3⟩).ntt := by
            simp only [entsOf]
            rw [List.get_map]
          rw [hL, hget1 i hi2 hi3]
          have hR : ((List.range ps2.length).map
              (fun j => c.val + 2 * (j + 1))).get ⟨i, h2⟩ =
              c.val + 2 * ((List.range ps2.length).get
                ⟨i, by simpa using h2⟩ + 1) := by
            rw [List.get_map]
          rw [hR, List.get_range]
      rw [renameRecs_cons_zero]
      simp only []
      rw [entsOf_append]
      have hcons : entsOf ({ p0 with ntt := tgt } :: (renameRecs tgt c 1 ps2).1) =
          tgt :: entsOf (renameRecs tgt c 1 ps2).1 := by
        simp only [entsOf, List.map_cons]
      rw [hcons]
      refine List.Nodup.append hnodup ?_ ?_
      · refine List.nodup_cons.mpr ⟨?_, ?_⟩
        · intro hmem
          rw [hTents] at hmem
          simp only [List.mem_map, List.mem_range] at hmem
          obtain ⟨j, -, hj⟩ := hmem
          exact nat_fresh_ne c.val j tgt htle hj
        · rw [hTents]
          refine List.Nodup.map ?_ (List.nodup_range ps2.length)
          intro a b hab
          exact nat_mint_inj c.val a b hab
      · intro e he1 he2
        rcases List.mem_cons.mp he2 with rfl | he3
        · exact htn he1
        · rw [hTents] at he3
          simp only [List.mem_map, List.mem_range] at he3
          obtain ⟨j, -, hj⟩ := he3
          exact nat_fresh_ne c.val j e (hold e he1) hj

/-- A previous generation holding entity `5` with a two-record subtree
(its child record carries entity `7`), an empty current generation, and a
counter at `4`. -/
def t3 : etree Nat :=
  ⟨[], [{ ntt := 5, scp := 2, hdl := noHandler Nat },
        { ntt := 7, scp := 1, hdl := noHandler Nat }]⟩

theorem C3_witness :
    ∃ renamed c2 prs,
      t3.reuse 5 2 ⟨4⟩ = .ok ({ t3 with g0 := t3.g0 ++ renamed }, c2, prs) ∧
      renamed.length = (t3.children 5).length ∧
      (∀ (j : Nat) (hj : j < (t3.children 5).length) (hj2 : j < renamed.length),
        renamed.get ⟨j, hj2⟩ =
          { (t3.children 5).get ⟨j, hj⟩ with
            ntt := if j = 0 then 2 else 4 + 2 * j }) ∧
      prs = ((t3.children 5).zip renamed).filterMap
          (fun q => if q.2.ntt = q.1.ntt then none else some (q.1.ntt, q.2.ntt)) ∧
      (t3.children 5 = [] → prs = []) ∧
      (t3.children 5 ≠ [] →
        prs.length = if 2 = 5 then (t3.children 5).length - 1
                     else (t3.children 5).length) ∧
      (entsOf (t3.g0 ++ renamed)).Nodup :=
  C3_reuse_renames t3 5 2 ⟨4⟩ (by simp [t3, entsOf]) (by simp [t3, entsOf])
    (by simp [t3, entsOf]) (by decide) (by decide) (by decide)
